import Mathlib

/-!
Verification of the Simple-Serialize-to-Image codec (`src/serializeToImage.py`).

The module under study is `ImgHandler`: a cursor-based byte stream over a 2D
pixel surface, with fixed-width big-endian integer encodings, length-prefixed
strings and lists, and type-directed generic dispatch.  The definitions below
are a shallow embedding of that Python class; each embedded operation keeps
the source's name (`write_next_byte`, `read_next_i64`, ...) and mirrors its
control flow statement by statement.  Python's unbounded `int` is modelled by
`Int`/`Nat`; Python `str` values are modelled as lists of code points
(`ord`/`chr` are the identity bridge between characters and code points).

The pixel surface itself (pygame in the reference) is an external collaborator
declared only as a `Protocol` in the source; its bounds behaviour and 8-bit
channel storage are modelled from the specification (see `get_at`, `set_at`).
-/

/-- An 8-bit color channel value.  The specification fixes pixels as ordered
triples of 8-bit unsigned integers. -/
abbrev Byte := Fin 256

/-- A pixel: channels 0, 1, 2 (`pxl = tuple[int, int, int]` in the source). -/
abbrev Pixel := Byte × Byte × Byte

/-- The handler state from `ImgHandler.__init__`: the bound surface, the
cursor `next_byte` (starts at 0), and the cached width and height.  The
surface contents are modelled as a total function from coordinates to pixels;
only coordinates inside `[0,w) × [0,h)` are ever accessed by the operations
(access outside is rejected, see `get_at`/`set_at`). -/
structure ImgHandler where
  surface : Nat → Nat → Pixel
  next_byte : Nat
  w : Nat
  h : Nat

/-- Errors surfaced by the embedded operations.  The only failure the codec
layer can hit is an out-of-bounds pixel access. -/
inductive Err where
  | outOfBounds
deriving Repr, DecidableEq

/-- Modelled from the spec: the external surface capability's pixel read
(`surface.get_at(pos)`).  The pixel provider is outside the repository (the
source only declares the `ImgSurface` Protocol); per spec §7 an access whose
coordinate falls outside `[0,W)×[0,H)` fails with a distinct OutOfBounds
error. -/
def get_at (st : ImgHandler) (x y : Nat) : Except Err Pixel :=
  if x < st.w ∧ y < st.h then .ok (st.surface x y) else .error .outOfBounds

/-- Modelled from the spec: the external surface capability's pixel write
(`surface.set_at(pos, pixel)`), with the same bounds condition as `get_at`. -/
def set_at (st : ImgHandler) (x y : Nat) (p : Pixel) : Except Err ImgHandler :=
  if x < st.w ∧ y < st.h then
    .ok { st with surface := fun x' y' => if x' = x ∧ y' = y then p else st.surface x' y' }
  else .error .outOfBounds

/-- Modelled from the spec: channel assignment `color[b_pos] = b` into an
8-bit channel.  Out-of-range values wrap silently (`b % 256`, spec §6
"code point truncated to 8 bits", §9 "reference behavior truncates/wraps
silently"); `b_pos` is always `next_byte % 3`, so the catch-all arm is
channel 2. -/
def setChannel (p : Pixel) (i : Nat) (b : Nat) : Pixel :=
  let v : Byte := ⟨b % 256, by omega⟩
  match i with
  | 0 => (v, p.2.1, p.2.2)
  | 1 => (p.1, v, p.2.2)
  | _ => (p.1, p.2.1, v)

/-- Channel projection `color[b_pos]`, returned as a plain integer. -/
def getChannel (p : Pixel) (i : Nat) : Nat :=
  match i with
  | 0 => p.1.val
  | 1 => p.2.1.val
  | _ => p.2.2.val

/-- Embeds `ImgHandler.write_next_byte`: resolve `b_pos = next_byte % 3`,
`y = next_byte // 3 // w`, `x = next_byte // 3 % w`, read the pixel, replace
one channel, write the pixel back, and advance the cursor by one. -/
def write_next_byte (b : Nat) (st : ImgHandler) : Except Err ImgHandler :=
  let b_pos := st.next_byte % 3
  let y := st.next_byte / 3 / st.w
  let x := st.next_byte / 3 % st.w
  match get_at st x y with
  | .error e => .error e
  | .ok color =>
    match set_at st x y (setChannel color b_pos b) with
    | .error e => .error e
    | .ok st2 => .ok { st2 with next_byte := st2.next_byte + 1 }

/-- Source constant `I32MAX`. -/
def I32MAX : Int := 2147483647

/-- Source constant `U32MAX`. -/
def U32MAX : Int := 4294967295

/-- Source constant `I64MAX`. -/
def I64MAX : Int := 9223372036854775807

/-- Source constant `U64MAX`. -/
def U64MAX : Int := 18446744073709551615

/-- Embeds `ImgHandler.write_next_i32`: for `byte_pos` in `range(4)` emit
`(val >> ((3 - byte_pos) * 8)) & 255`.  Python's arithmetic right shift on
unbounded integers is floor division (`Int.fdiv`) and `& 255` is the
nonnegative remainder (`Int.fmod _ 256`). -/
def write_next_i32 (val : Int) (st : ImgHandler) : Except Err ImgHandler :=
  (List.range 4).foldlM (fun s byte_pos =>
    write_next_byte ((Int.fmod (Int.fdiv val ((2 : Int) ^ ((3 - byte_pos) * 8))) 256).toNat) s) st

/-- Embeds `ImgHandler.write_next_i64`: for `byte_pos` in `range(8)` emit
`(val >> ((7 - byte_pos) * 8)) & 255` (shift and mask as in
`write_next_i32`). -/
def write_next_i64 (val : Int) (st : ImgHandler) : Except Err ImgHandler :=
  (List.range 8).foldlM (fun s byte_pos =>
    write_next_byte ((Int.fmod (Int.fdiv val ((2 : Int) ^ ((7 - byte_pos) * 8))) 256).toNat) s) st

/-- Embeds `ImgHandler.write_next_string`: write `len(val)` as a 64-bit
integer, then each character's code point (`ord(char)`) as one raw byte.
There is no range check on the code points. -/
def write_next_string (s : List Nat) (st : ImgHandler) : Except Err ImgHandler :=
  match write_next_i64 (s.length : Int) st with
  | .error e => .error e
  | .ok st => s.foldlM (fun s2 ch => write_next_byte ch s2) st

/-- Runtime values flowing through the generic `write_next` dispatch:
Python integers, strings (lists of code points), lists, and user-defined
objects.  Modelled from the spec: a user-defined object implementing the
`ImgSerializable` protocol issues a fixed, self-chosen sequence of cursor
writes for its fields and mirrors it on read (spec §4.5); it is modelled as
a record of field values serialized in order via the generic dispatch. -/
inductive PyValue where
  | vInt (i : Int)
  | vStr (s : List Nat)
  | vList (l : List PyValue)
  | vObj (fields : List PyValue)

/-- Declared types driving `read_next` dispatch: `int`, `str`,
`list[E]` (a `GenericAlias` in the source), and an object type whose
`img_deserialize` reads a fixed shape of fields. -/
inductive PyType where
  | tInt
  | tStr
  | tList (e : PyType)
  | tObj (shape : List PyType)

mutual
/-- Embeds the generic dispatch `ImgHandler.write_next`: integers go to
`write_next_i64` ("Ints default to i64"), strings to `write_next_string`,
lists to `write_next_list` (its body — length prefix then elements — is
inlined here so the mutual recursion stays structural; `write_next_list`
below is the source-shaped wrapper and is definitionally equal), and
any other value to its own `img_serialize`. -/
def write_next : PyValue → ImgHandler → Except Err ImgHandler
  | .vInt i, st => write_next_i64 i st
  | .vStr s, st => write_next_string s st
  | .vList l, st =>
    match write_next_i64 (l.length : Int) st with
    | .error e => .error e
    | .ok st => writeElems l st
  | .vObj fields, st => writeElems fields st

/-- The element loop of `write_next_list` (`for item in val: self.write_next(item)`),
which is also the modelled `img_serialize` of an object (each field written in
order through the generic dispatch). -/
def writeElems : List PyValue → ImgHandler → Except Err ImgHandler
  | [], st => .ok st
  | v :: vs, st =>
    match write_next v st with
    | .error e => .error e
    | .ok st => writeElems vs st
end

/-- Modelled from the spec: the object protocol's instance-side serializer
(`cls.img_serialize(self)`) — a fixed sequence of generic writes, one per
field (spec §4.5). -/
def img_serialize (fields : List PyValue) (st : ImgHandler) : Except Err ImgHandler :=
  writeElems fields st

/-- Embeds `ImgHandler.write_next_object`: delegate to the value's
`img_serialize`. -/
def write_next_object (fields : List PyValue) (st : ImgHandler) : Except Err ImgHandler :=
  img_serialize fields st

/-- Embeds `ImgHandler.write_next_list`: write `len(val)` as a 64-bit
integer, then each element through the generic `write_next`. -/
def write_next_list (l : List PyValue) (st : ImgHandler) : Except Err ImgHandler :=
  match write_next_i64 (l.length : Int) st with
  | .error e => .error e
  | .ok st => writeElems l st

/-- Embeds `ImgHandler.read_next_byte`: resolve the same `(x, y, b_pos)`
as `write_next_byte`, return the channel value, and advance the cursor. -/
def read_next_byte (st : ImgHandler) : Except Err (Nat × ImgHandler) :=
  let b_pos := st.next_byte % 3
  let y := st.next_byte / 3 / st.w
  let x := st.next_byte / 3 % st.w
  match get_at st x y with
  | .error e => .error e
  | .ok color => .ok (getChannel color b_pos, { st with next_byte := st.next_byte + 1 })

/-- Embeds `ImgHandler.read_next_bytes(size)`: `size` single-byte reads in
order.  The source's lazy generator is consumed eagerly and completely by
every caller, so it is modelled as the finished list of bytes. -/
def read_next_bytes : Nat → ImgHandler → Except Err (List Nat × ImgHandler)
  | 0, st => .ok ([], st)
  | n + 1, st =>
    match read_next_byte st with
    | .error e => .error e
    | .ok (b, st) =>
      match read_next_bytes n st with
      | .error e => .error e
      | .ok (bs, st) => .ok (b :: bs, st)

/-- Embeds `ImgHandler.read_next_i32`: accumulate 4 bytes via
`output = (output << 8) + byte`, then
`output - ((output >= I32MAX) * (U32MAX + 1))`. -/
def read_next_i32 (st : ImgHandler) : Except Err (Int × ImgHandler) :=
  match read_next_bytes 4 st with
  | .error e => .error e
  | .ok (bs, st) =>
    let output : Nat := bs.foldl (fun acc b => (acc <<< 8) + b) 0
    .ok ((output : Int) - (if I32MAX ≤ (output : Int) then U32MAX + 1 else 0), st)

/-- Embeds `ImgHandler.read_next_i64`: accumulate 8 bytes via
`output = (output << 8) + byte`, then
`output - ((output >= I64MAX) * (U64MAX + 1))`. -/
def read_next_i64 (st : ImgHandler) : Except Err (Int × ImgHandler) :=
  match read_next_bytes 8 st with
  | .error e => .error e
  | .ok (bs, st) =>
    let output : Nat := bs.foldl (fun acc b => (acc <<< 8) + b) 0
    .ok ((output : Int) - (if I64MAX ≤ (output : Int) then U64MAX + 1 else 0), st)

/-- Embeds `ImgHandler.read_next_string`: read the 64-bit length, then that
many bytes, reassembled one code point per byte (`chr(ord)`).  A negative
size yields an empty range in Python, hence `Int.toNat`. -/
def read_next_string (st : ImgHandler) : Except Err (List Nat × ImgHandler) :=
  match read_next_i64 st with
  | .error e => .error e
  | .ok (size, st) =>
    match read_next_bytes size.toNat st with
    | .error e => .error e
    | .ok (bs, st) => .ok (bs, st)

/-- The element loop of `read_next_list`
(`for _ in range(size): output.append(self.read_next(inner_typ))`), with the
element reader passed as a function so the recursion over the declared type
stays structural. -/
def readLoop (f : ImgHandler → Except Err (PyValue × ImgHandler)) :
    Nat → ImgHandler → Except Err (List PyValue × ImgHandler)
  | 0, st => .ok ([], st)
  | n + 1, st =>
    match f st with
    | .error e => .error e
    | .ok (v, st) =>
      match readLoop f n st with
      | .error e => .error e
      | .ok (vs, st) => .ok (v :: vs, st)

mutual
/-- Embeds the generic dispatch `ImgHandler.read_next(typ)`: `int` goes to
`read_next_i64`, `str` to `read_next_string`, `list[E]` to
`read_next_list(E)` (its body is inlined here so the recursion stays
structural; `read_next_list` below is the source-shaped wrapper), and any
other declared type to its static `img_deserialize`. -/
def read_next : PyType → ImgHandler → Except Err (PyValue × ImgHandler)
  | .tInt, st =>
    match read_next_i64 st with
    | .error e => .error e
    | .ok (i, st) => .ok (.vInt i, st)
  | .tStr, st =>
    match read_next_string st with
    | .error e => .error e
    | .ok (s, st) => .ok (.vStr s, st)
  | .tList e, st =>
    match read_next_i64 st with
    | .error e2 => .error e2
    | .ok (size, st) =>
      match readLoop (read_next e) size.toNat st with
      | .error e2 => .error e2
      | .ok (l, st) => .ok (.vList l, st)
  | .tObj shape, st =>
    match readShape shape st with
    | .error e => .error e
    | .ok (fields, st) => .ok (.vObj fields, st)

/-- Modelled from the spec: the object protocol's type-side deserializer
(`cls.img_deserialize(handler)`) — the exact mirror sequence of generic
reads, one per field of the declared shape (spec §4.5). -/
def readShape : List PyType → ImgHandler → Except Err (List PyValue × ImgHandler)
  | [], st => .ok ([], st)
  | t :: ts, st =>
    match read_next t st with
    | .error e => .error e
    | .ok (v, st) =>
      match readShape ts st with
      | .error e => .error e
      | .ok (vs, st) => .ok (v :: vs, st)
end

/-- Modelled from the spec: the object protocol's deserializer entry point. -/
def img_deserialize (shape : List PyType) (st : ImgHandler) :
    Except Err (List PyValue × ImgHandler) :=
  readShape shape st

/-- Embeds `ImgHandler.read_next_object`: delegate to the declared type's
`img_deserialize`. -/
def read_next_object (shape : List PyType) (st : ImgHandler) :
    Except Err (List PyValue × ImgHandler) :=
  img_deserialize shape st

/-- Embeds `ImgHandler.read_next_list(inner_typ)`: read the 64-bit length,
then that many elements through the generic `read_next`. -/
def read_next_list (e : PyType) (st : ImgHandler) :
    Except Err (List PyValue × ImgHandler) :=
  match read_next_i64 st with
  | .error e2 => .error e2
  | .ok (size, st) => readLoop (read_next e) size.toNat st

/-- Embeds `ImgHandler.__init__`: next_byte starts at 0 and the surface's
width and height are captured at construction. -/
def mkImgHandler (surf : Nat → Nat → Pixel) (w h : Nat) : ImgHandler :=
  { surface := surf, next_byte := 0, w := w, h := h }

/-- An all-black surface (`win.fill((0,0,0))` in the source demo). -/
def blackSurface : Nat → Nat → Pixel := fun _ _ => (0, 0, 0)

/-- Iterated `write_next_byte`: the byte stream a sequence of writes lays
down.  Every composite write operation factors through this. -/
def writeBytes (bs : List Nat) (st : ImgHandler) : Except Err ImgHandler :=
  bs.foldlM (fun s b => write_next_byte b s) st

/-- The byte the cursor position `m` denotes on the surface: channel
`m % 3` of the pixel at `x = m / 3 % w`, `y = m / 3 / w`.  This is the
byte-to-coordinate mapping both `write_next_byte` and `read_next_byte`
resolve. -/
def byteAt (st : ImgHandler) (m : Nat) : Nat :=
  getChannel (st.surface (m / 3 % st.w) (m / 3 / st.w)) (m % 3)

/-- The cursor position `n` resolves to a pixel inside a `w × h` surface. -/
def inBounds (w h n : Nat) : Prop :=
  n / 3 % w < w ∧ n / 3 / w < h

instance (w h n : Nat) : Decidable (inBounds w h n) := by
  unfold inBounds
  exact inferInstance

/-- The state a successful `write_next_byte b` leaves behind: the resolved
pixel has channel `next_byte % 3` replaced (all other pixels keep their
value) and the cursor advances by one. -/
def writeByteResult (b : Nat) (st : ImgHandler) : ImgHandler :=
  { surface := fun x' y' =>
      if x' = st.next_byte / 3 % st.w ∧ y' = st.next_byte / 3 / st.w then
        setChannel (st.surface (st.next_byte / 3 % st.w) (st.next_byte / 3 / st.w))
          (st.next_byte % 3) b
      else st.surface x' y',
    next_byte := st.next_byte + 1,
    w := st.w,
    h := st.h }

/-- The `k` bytes stored on the surface starting at cursor position `n`. -/
def storedBytes (st : ImgHandler) : Nat → Nat → List Nat
  | _, 0 => []
  | n, k + 1 => byteAt st n :: storedBytes st (n + 1) k

/-- The `n` base-256 digits of `u`, most significant first. -/
def bytesBE (n u : Nat) : List Nat :=
  (List.range n).map (fun k => u / 256 ^ (n - 1 - k) % 256)

/-- Big-endian reassembly of a byte list, as the read loops do
(`output = (output << 8) + byte`). -/
def decodeBE (bs : List Nat) : Nat :=
  bs.foldl (fun acc b => acc * 256 + b) 0

/-- The byte sequence `write_next_i64 val` emits:
`(val >> ((7 - k) * 8)) & 255` for `k` in `range(8)`. -/
def i64WireBytes (val : Int) : List Nat :=
  (List.range 8).map (fun k => (Int.fmod (Int.fdiv val ((2 : Int) ^ ((7 - k) * 8))) 256).toNat)

mutual
/-- The flat byte sequence a value's write lays down on the stream
(length prefixes included). -/
def serBytes : PyValue → List Nat
  | .vInt i => i64WireBytes i
  | .vStr s => i64WireBytes (s.length : Int) ++ s
  | .vList l => i64WireBytes (l.length : Int) ++ serList l
  | .vObj fields => serList fields

/-- Concatenated byte sequences of a list of values. -/
def serList : List PyValue → List Nat
  | [] => []
  | v :: vs => serBytes v ++ serList vs
end

mutual
/-- The declared type a value decodes at: integers at `int`, strings at
`str`, lists at `list[E]` with every element of type `E`, objects at an
object type of the matching field shape. -/
def hasTy : PyValue → PyType → Bool
  | .vInt _, .tInt => true
  | .vStr _, .tStr => true
  | .vList l, .tList e => hasTyList l e
  | .vObj fields, .tObj shape => hasTyFields fields shape
  | _, _ => false

/-- Every element of the list has the element type (homogeneous list). -/
def hasTyList : List PyValue → PyType → Bool
  | [], _ => true
  | v :: vs, e => hasTy v e && hasTyList vs e

/-- The fields match the object shape pointwise. -/
def hasTyFields : List PyValue → List PyType → Bool
  | [], [] => true
  | v :: vs, t :: ts => hasTy v t && hasTyFields vs ts
  | _, _ => false
end

mutual
/-- Values whose every embedded 64-bit write decodes back to itself:
integers in `[-2^63, 2^63 - 1)` (the code's reinterpretation comparison
uses `output >= I64MAX`, so the unsigned pattern `2^63 - 1` itself is
mis-decoded), string code points in `0..255`, and length prefixes below
`2^63 - 1`. -/
def goodValue : PyValue → Bool
  | .vInt i => decide (-9223372036854775808 ≤ i) && decide (i < 9223372036854775807)
  | .vStr s => s.all (fun c => decide (c < 256)) && decide (s.length < 9223372036854775807)
  | .vList l => decide (l.length < 9223372036854775807) && goodList l
  | .vObj fields => goodList fields

/-- Every value in the list is good. -/
def goodList : List PyValue → Bool
  | [] => true
  | v :: vs => goodValue v && goodList vs
end

/-- Write `v` at the cursor, rewind the cursor to where the write began,
and read a value of declared type `ty` back from the same surface. -/
def readAfterWrite (v : PyValue) (ty : PyType) (st : ImgHandler) : Except Err PyValue :=
  match write_next v st with
  | .error e => .error e
  | .ok stW =>
    match read_next ty { stW with next_byte := st.next_byte } with
    | .error e => .error e
    | .ok (r, _) => .ok r

/-- Write a list with `write_next_list`, rewind, and read it back with
`read_next_list`. -/
def listReadAfterWrite (l : List PyValue) (e : PyType) (st : ImgHandler) :
    Except Err (List PyValue) :=
  match write_next_list l st with
  | .error e2 => .error e2
  | .ok stW =>
    match read_next_list e { stW with next_byte := st.next_byte } with
    | .error e2 => .error e2
    | .ok (r, _) => .ok r

/-- Write `val` with `write_next_i32` on a fresh 8×8 surface, rewind, and
read it back with `read_next_i32`. -/
def intRoundTrip32 (val : Int) : Except Err Int :=
  match write_next_i32 val (mkImgHandler blackSurface 8 8) with
  | .error e => .error e
  | .ok st =>
    match read_next_i32 { st with next_byte := 0 } with
    | .error e => .error e
    | .ok (v, _) => .ok v

/-- Write `val` with `write_next_i64` on a fresh 8×8 surface, rewind, and
read it back with `read_next_i64`. -/
def intRoundTrip64 (val : Int) : Except Err Int :=
  match write_next_i64 val (mkImgHandler blackSurface 8 8) with
  | .error e => .error e
  | .ok st =>
    match read_next_i64 { st with next_byte := 0 } with
    | .error e => .error e
    | .ok (v, _) => .ok v

/-- Write a string with `write_next_string` on a fresh 8×8 surface, rewind,
and read it back with `read_next_string`. -/
def strRoundTrip (s : List Nat) : Except Err (List Nat) :=
  match write_next_string s (mkImgHandler blackSurface 8 8) with
  | .error e => .error e
  | .ok st =>
    match read_next_string { st with next_byte := 0 } with
    | .error e => .error e
    | .ok (r, _) => .ok r

/-- The end-to-end write pass on a fresh 8×8 surface: the 64-bit integer 42,
then the string "hi" (code points 104, 105), then the list of 64-bit
integers 1, 2, 3. -/
def scenario8x8 : Except Err ImgHandler :=
  match write_next_i64 42 (mkImgHandler blackSurface 8 8) with
  | .error e => .error e
  | .ok st =>
    match write_next_string [104, 105] st with
    | .error e => .error e
    | .ok st => write_next_list [.vInt 1, .vInt 2, .vInt 3] st

/-- The byte sequence `write_next_i32 val` emits:
`(val >> ((3 - k) * 8)) & 255` for `k` in `range(4)`. -/
def i32WireBytes (val : Int) : List Nat :=
  (List.range 4).map (fun k => (Int.fmod (Int.fdiv val ((2 : Int) ^ ((3 - k) * 8))) 256).toNat)

/-- Write `val` with `write_next_i32` at the cursor, rewind the cursor, and
read it back with `read_next_i32`. -/
def i32ReadAfterWrite (val : Int) (st : ImgHandler) : Except Err Int :=
  match write_next_i32 val st with
  | .error e => .error e
  | .ok stW =>
    match read_next_i32 { stW with next_byte := st.next_byte } with
    | .error e => .error e
    | .ok (v, _) => .ok v

/-- Write `val` with `write_next_i64` at the cursor, rewind the cursor, and
read it back with `read_next_i64`. -/
def i64ReadAfterWrite (val : Int) (st : ImgHandler) : Except Err Int :=
  match write_next_i64 val st with
  | .error e => .error e
  | .ok stW =>
    match read_next_i64 { stW with next_byte := st.next_byte } with
    | .error e => .error e
    | .ok (v, _) => .ok v

/-- Write a string with `write_next_string` at the cursor, rewind the
cursor, and read it back with `read_next_string`. -/
def stringReadAfterWrite (s : List Nat) (st : ImgHandler) : Except Err (List Nat) :=
  match write_next_string s st with
  | .error e => .error e
  | .ok stW =>
    match read_next_string { stW with next_byte := st.next_byte } with
    | .error e => .error e
    | .ok (r, _) => .ok r

theorem write_next_int_def (i : Int) (st : ImgHandler) :
    write_next (.vInt i) st = write_next_i64 i st := by
  rw [write_next]

theorem write_next_str_def (s : List Nat) (st : ImgHandler) :
    write_next (.vStr s) st = write_next_string s st := by
  rw [write_next]

theorem write_next_listv_def (l : List PyValue) (st : ImgHandler) :
    write_next (.vList l) st = write_next_list l st := by
  rw [write_next, write_next_list]

theorem write_next_obj_def (fields : List PyValue) (st : ImgHandler) :
    write_next (.vObj fields) st = write_next_object fields st := by
  rw [write_next, write_next_object, img_serialize]

theorem writeElems_nil_def (st : ImgHandler) : writeElems [] st = .ok st := by
  rw [writeElems]

theorem writeElems_cons_def (v : PyValue) (vs : List PyValue) (st : ImgHandler) :
    writeElems (v :: vs) st =
      match write_next v st with
      | .error e => .error e
      | .ok st => writeElems vs st := by
  rw [writeElems]

theorem read_next_int_def (st : ImgHandler) :
    read_next .tInt st =
      match read_next_i64 st with
      | .error e => .error e
      | .ok (i, st) => .ok (.vInt i, st) := by
  rw [read_next]

theorem read_next_str_def (st : ImgHandler) :
    read_next .tStr st =
      match read_next_string st with
      | .error e => .error e
      | .ok (s, st) => .ok (.vStr s, st) := by
  rw [read_next]

theorem read_next_listty_def (e : PyType) (st : ImgHandler) :
    read_next (.tList e) st =
      match read_next_list e st with
      | .error e2 => .error e2
      | .ok (l, st) => .ok (.vList l, st) := by
  rw [read_next, read_next_list]
  cases read_next_i64 st with
  | error e2 => rfl
  | ok p =>
    cases readLoop (read_next e) p.1.toNat p.2 with
    | error e2 => rfl
    | ok q => rfl

theorem read_next_obj_def (shape : List PyType) (st : ImgHandler) :
    read_next (.tObj shape) st =
      match read_next_object shape st with
      | .error e => .error e
      | .ok (fields, st) => .ok (.vObj fields, st) := by
  rw [read_next, read_next_object, img_deserialize]

theorem readShape_nil_def (st : ImgHandler) : readShape [] st = .ok ([], st) := by
  rw [readShape]

theorem readShape_cons_def (t : PyType) (ts : List PyType) (st : ImgHandler) :
    readShape (t :: ts) st =
      match read_next t st with
      | .error e => .error e
      | .ok (v, st) =>
        match readShape ts st with
        | .error e => .error e
        | .ok (vs, st) => .ok (v :: vs, st) := by
  rw [readShape]

theorem readLoop_zero_def (f : ImgHandler → Except Err (PyValue × ImgHandler))
    (st : ImgHandler) : readLoop f 0 st = .ok ([], st) := rfl

theorem readLoop_succ_def (f : ImgHandler → Except Err (PyValue × ImgHandler)) (n : Nat)
    (st : ImgHandler) :
    readLoop f (n + 1) st =
      match f st with
      | .error e => .error e
      | .ok (v, st) =>
        match readLoop f n st with
        | .error e => .error e
        | .ok (vs, st) => .ok (v :: vs, st) := rfl

theorem getChannel_setChannel_self (p : Pixel) (i b : Nat) (hi : i < 3) :
    getChannel (setChannel p i b) i = b % 256 := by
  have h : i = 0 ∨ i = 1 ∨ i = 2 := by omega
  rcases h with h | h | h <;> subst h <;> rfl

theorem getChannel_setChannel_other (p : Pixel) (i j b : Nat) (hi : i < 3) (hj : j < 3)
    (hne : i ≠ j) : getChannel (setChannel p j b) i = getChannel p i := by
  have h3 : i = 0 ∨ i = 1 ∨ i = 2 := by omega
  have g3 : j = 0 ∨ j = 1 ∨ j = 2 := by omega
  rcases h3 with h | h | h <;> rcases g3 with g | g | g <;> subst h <;> subst g <;>
    first
    | rfl
    | exact absurd rfl hne

theorem write_next_byte_eq (b : Nat) (st : ImgHandler) :
    write_next_byte b st =
      if inBounds st.w st.h st.next_byte then .ok (writeByteResult b st)
      else .error .outOfBounds := by
  unfold write_next_byte get_at set_at writeByteResult inBounds
  by_cases h : st.next_byte / 3 % st.w < st.w ∧ st.next_byte / 3 / st.w < st.h
  · simp [h]
  · simp [h]

theorem read_next_byte_eq (st : ImgHandler) :
    read_next_byte st =
      if inBounds st.w st.h st.next_byte then
        .ok (byteAt st st.next_byte, { st with next_byte := st.next_byte + 1 })
      else .error .outOfBounds := by
  unfold read_next_byte get_at byteAt inBounds
  by_cases h : st.next_byte / 3 % st.w < st.w ∧ st.next_byte / 3 / st.w < st.h
  · simp [h]
  · simp [h]

theorem inBounds_pos_w {w h n : Nat} (hin : inBounds w h n) : 0 < w := by
  rcases Nat.eq_zero_or_pos w with h0 | h0
  · subst h0
    exact absurd hin.1 (Nat.not_lt_zero _)
  · exact h0

theorem byteAt_cursor (st : ImgHandler) (j m : Nat) :
    byteAt { st with next_byte := j } m = byteAt st m := rfl

theorem writeByteResult_next_byte (b : Nat) (st : ImgHandler) :
    (writeByteResult b st).next_byte = st.next_byte + 1 := rfl

theorem writeByteResult_w (b : Nat) (st : ImgHandler) : (writeByteResult b st).w = st.w := rfl

theorem writeByteResult_h (b : Nat) (st : ImgHandler) : (writeByteResult b st).h = st.h := rfl

theorem byteAt_writeByteResult_self (b : Nat) (st : ImgHandler) :
    byteAt (writeByteResult b st) st.next_byte = b % 256 := by
  have h := getChannel_setChannel_self
    (st.surface (st.next_byte / 3 % st.w) (st.next_byte / 3 / st.w)) (st.next_byte % 3) b
    (Nat.mod_lt _ (by omega))
  unfold byteAt writeByteResult
  simpa using h

theorem byteAt_writeByteResult_other (b : Nat) (st : ImgHandler) (m : Nat)
    (hin : inBounds st.w st.h st.next_byte) (hm : m ≠ st.next_byte) :
    byteAt (writeByteResult b st) m = byteAt st m := by
  have hw : 0 < st.w := inBounds_pos_w hin
  unfold byteAt writeByteResult
  show getChannel
      (if m / 3 % st.w = st.next_byte / 3 % st.w ∧ m / 3 / st.w = st.next_byte / 3 / st.w then
        setChannel (st.surface (st.next_byte / 3 % st.w) (st.next_byte / 3 / st.w))
          (st.next_byte % 3) b
      else st.surface (m / 3 % st.w) (m / 3 / st.w)) (m % 3) = _
  by_cases hpix : m / 3 % st.w = st.next_byte / 3 % st.w ∧
      m / 3 / st.w = st.next_byte / 3 / st.w
  · rw [if_pos hpix, hpix.1, hpix.2]
    have hch : m % 3 ≠ st.next_byte % 3 := by
      intro hc
      apply hm
      have h1 := Nat.div_add_mod (m / 3) st.w
      have h2 := Nat.div_add_mod (st.next_byte / 3) st.w
      have hdiv : m / 3 = st.next_byte / 3 := by
        rw [← h1, ← h2, hpix.1, hpix.2]
      omega
    exact getChannel_setChannel_other _ _ _ _ (Nat.mod_lt _ (by omega))
      (Nat.mod_lt _ (by omega)) hch
  · rw [if_neg hpix]

theorem storedBytes_length (st : ImgHandler) (n k : Nat) :
    (storedBytes st n k).length = k := by
  induction k generalizing n with
  | zero => rfl
  | succ k ih => simp [storedBytes, ih]

theorem storedBytes_add (st : ImgHandler) (a : Nat) :
    ∀ (n b : Nat), storedBytes st n (a + b) = storedBytes st n a ++ storedBytes st (n + a) b := by
  induction a with
  | zero => intro n b; simp [storedBytes]
  | succ a ih =>
    intro n b
    have h1 : a + 1 + b = (a + b) + 1 := by omega
    rw [h1]
    show byteAt st n :: storedBytes st (n + 1) (a + b) = _
    rw [ih (n + 1) b]
    have h2 : n + 1 + a = n + (a + 1) := by omega
    rw [h2]
    rfl

theorem storedBytes_cursor (st : ImgHandler) (j k : Nat) :
    ∀ n, storedBytes { st with next_byte := j } n k = storedBytes st n k := by
  induction k with
  | zero => intro n; rfl
  | succ k ih => intro n; simp [storedBytes, ih, byteAt_cursor]

theorem writeBytes_nil (st : ImgHandler) : writeBytes [] st = .ok st := rfl

theorem writeBytes_cons (b : Nat) (bs : List Nat) (st : ImgHandler) :
    writeBytes (b :: bs) st =
      match write_next_byte b st with
      | .error e => .error e
      | .ok st2 => writeBytes bs st2 := by
  unfold writeBytes
  rw [List.foldlM_cons]
  cases write_next_byte b st with
  | error e => rfl
  | ok st2 => rfl

theorem writeBytes_append (bs1 bs2 : List Nat) (st : ImgHandler) :
    writeBytes (bs1 ++ bs2) st =
      match writeBytes bs1 st with
      | .error e => .error e
      | .ok st2 => writeBytes bs2 st2 := by
  induction bs1 generalizing st with
  | nil => rw [List.nil_append, writeBytes_nil]
  | cons b bs ih =>
    rw [List.cons_append, writeBytes_cons, writeBytes_cons]
    cases write_next_byte b st with
    | error e => rfl
    | ok st2 => exact ih st2

theorem writeBytes_ok (bs : List Nat) :
    ∀ st st' : ImgHandler, writeBytes bs st = .ok st' →
      st'.w = st.w ∧ st'.h = st.h ∧ st'.next_byte = st.next_byte + bs.length ∧
      (∀ m, m < st.next_byte ∨ st.next_byte + bs.length ≤ m → byteAt st' m = byteAt st m) ∧
      storedBytes st' st.next_byte bs.length = bs.map (fun b => b % 256) ∧
      (∀ i, i < bs.length → inBounds st.w st.h (st.next_byte + i)) := by
  induction bs with
  | nil =>
    intro st st' hok
    rw [writeBytes_nil] at hok
    injection hok with h
    subst h
    refine ⟨rfl, rfl, by simp, fun m _ => rfl, rfl, by simp⟩
  | cons b bs ih =>
    intro st st' hok
    rw [writeBytes_cons, write_next_byte_eq] at hok
    by_cases hin : inBounds st.w st.h st.next_byte
    · rw [if_pos hin] at hok
      obtain ⟨hw, hh, hn, hframe, hstored, hbounds⟩ := ih (writeByteResult b st) st' hok
      have hw' : st'.w = st.w := hw
      have hh' : st'.h = st.h := hh
      have hn' : st'.next_byte = st.next_byte + (b :: bs).length := by
        rw [hn, writeByteResult_next_byte, List.length_cons]
        omega
      have hframe' : ∀ m, m < st.next_byte ∨ st.next_byte + (b :: bs).length ≤ m →
          byteAt st' m = byteAt st m := by
        intro m hm
        rw [List.length_cons] at hm
        have h1 : byteAt st' m = byteAt (writeByteResult b st) m := by
          apply hframe
          rw [writeByteResult_next_byte]
          omega
        rw [h1]
        apply byteAt_writeByteResult_other _ _ _ hin
        omega
      refine ⟨hw', hh', hn', hframe', ?_, ?_⟩
      · show byteAt st' st.next_byte :: storedBytes st' (st.next_byte + 1) bs.length =
          b % 256 :: bs.map (fun b => b % 256)
        have h1 : byteAt st' st.next_byte = byteAt (writeByteResult b st) st.next_byte := by
          apply hframe
          rw [writeByteResult_next_byte]
          omega
        rw [h1, byteAt_writeByteResult_self]
        exact congrArg _ hstored
      · intro i hi
        rw [List.length_cons] at hi
        match i with
        | 0 => simpa using hin
        | j + 1 =>
          have h1 := hbounds j (by omega)
          rw [writeByteResult_w, writeByteResult_h, writeByteResult_next_byte] at h1
          have h2 : st.next_byte + 1 + j = st.next_byte + (j + 1) := by omega
          rw [h2] at h1
          exact h1
    · rw [if_neg hin] at hok
      exact absurd hok (by simp)

theorem writeBytes_total (bs : List Nat) :
    ∀ st : ImgHandler, (∀ i, i < bs.length → inBounds st.w st.h (st.next_byte + i)) →
      ∃ st', writeBytes bs st = .ok st' := by
  induction bs with
  | nil => intro st _; exact ⟨st, rfl⟩
  | cons b bs ih =>
    intro st hin
    have h0 : inBounds st.w st.h st.next_byte := by simpa using hin 0 (by simp)
    rw [writeBytes_cons, write_next_byte_eq, if_pos h0]
    apply ih
    intro i hi
    have h1 := hin (i + 1) (by simp; omega)
    show inBounds st.w st.h (st.next_byte + 1 + i)
    have h2 : st.next_byte + (i + 1) = st.next_byte + 1 + i := by omega
    rw [h2] at h1
    exact h1

theorem read_next_bytes_ok (k : Nat) :
    ∀ st : ImgHandler, (∀ i, i < k → inBounds st.w st.h (st.next_byte + i)) →
      read_next_bytes k st =
        .ok (storedBytes st st.next_byte k, { st with next_byte := st.next_byte + k }) := by
  induction k with
  | zero => intro st _; rfl
  | succ k ih =>
    intro st hin
    have h0 : inBounds st.w st.h st.next_byte := by simpa using hin 0 (by omega)
    rw [read_next_bytes, read_next_byte_eq, if_pos h0]
    have hins : ∀ i, i < k →
        inBounds st.w st.h ({ st with next_byte := st.next_byte + 1 }.next_byte + i) := by
      intro i hi
      have h1 := hin (i + 1) (by omega)
      show inBounds st.w st.h (st.next_byte + 1 + i)
      have h2 : st.next_byte + (i + 1) = st.next_byte + 1 + i := by omega
      rw [h2] at h1
      exact h1
    show (match read_next_bytes k { st with next_byte := st.next_byte + 1 } with
      | .error e => Except.error e
      | .ok (bs, st2) => Except.ok (byteAt st st.next_byte :: bs, st2)) = _
    rw [ih { st with next_byte := st.next_byte + 1 } hins]
    show Except.ok (byteAt st st.next_byte ::
        storedBytes { st with next_byte := st.next_byte + 1 } (st.next_byte + 1) k,
        { st with next_byte := st.next_byte + 1 + k }) = _
    rw [storedBytes_cursor]
    have h3 : st.next_byte + 1 + k = st.next_byte + (k + 1) := by omega
    rw [h3]
    rfl

theorem read_next_bytes_pres (k : Nat) :
    ∀ (st : ImgHandler) (bs : List Nat) (st' : ImgHandler),
      read_next_bytes k st = .ok (bs, st') →
      st'.surface = st.surface ∧ st'.w = st.w ∧ st'.h = st.h ∧
      st'.next_byte = st.next_byte + k := by
  induction k with
  | zero =>
    intro st bs st' h
    rw [read_next_bytes] at h
    injection h with h1
    injection h1 with h2 h3
    subst h3
    exact ⟨rfl, rfl, rfl, by simp⟩
  | succ k ih =>
    intro st bs st' h
    rw [read_next_bytes, read_next_byte_eq] at h
    by_cases hin : inBounds st.w st.h st.next_byte
    · rw [if_pos hin] at h
      have h2 : (match read_next_bytes k { st with next_byte := st.next_byte + 1 } with
          | .error e => Except.error e
          | .ok (bs2, st2) => Except.ok (byteAt st st.next_byte :: bs2, st2)) =
          Except.ok (bs, st') := h
      cases hrec : read_next_bytes k { st with next_byte := st.next_byte + 1 } with
      | error e => rw [hrec] at h2; exact absurd h2 (by simp)
      | ok p =>
        rw [hrec] at h2
        obtain ⟨hs1, hs2, hs3, hs4⟩ := ih _ p.1 p.2 (by rw [hrec])
        have h3 : Except.ok (ε := Err) (byteAt st st.next_byte :: p.1, p.2) =
            .ok (bs, st') := h2
        injection h3 with h5
        injection h5 with h6 h7
        subst h7
        refine ⟨hs1, hs2, hs3, ?_⟩
        show p.2.next_byte = st.next_byte + (k + 1)
        rw [hs4]
        show st.next_byte + 1 + k = st.next_byte + (k + 1)
        omega
    · rw [if_neg hin] at h
      exact absurd h (by simp)

theorem foldlM_write_map {α : Type} (l : List α) (f : α → Nat) :
    ∀ st : ImgHandler,
      l.foldlM (fun s a => write_next_byte (f a) s) st = writeBytes (l.map f) st := by
  induction l with
  | nil => intro st; rfl
  | cons a l ih =>
    intro st
    rw [List.map_cons, writeBytes_cons, List.foldlM_cons]
    cases write_next_byte (f a) st with
    | error e => rfl
    | ok st2 => exact ih st2

theorem write_next_i64_eq (val : Int) (st : ImgHandler) :
    write_next_i64 val st = writeBytes (i64WireBytes val) st := by
  unfold write_next_i64 i64WireBytes
  exact foldlM_write_map _ _ st

theorem write_next_string_eq (s : List Nat) (st : ImgHandler) :
    write_next_string s st = writeBytes (i64WireBytes (s.length : Int) ++ s) st := by
  unfold write_next_string
  rw [writeBytes_append, write_next_i64_eq]
  cases writeBytes (i64WireBytes (s.length : Int)) st with
  | error e => rfl
  | ok st2 => rfl

theorem i64WireBytes_length (val : Int) : (i64WireBytes val).length = 8 := by
  simp [i64WireBytes]

theorem i64WireBytes_lt (val : Int) : ∀ b ∈ i64WireBytes val, b < 256 := by
  intro b hb
  simp only [i64WireBytes, List.mem_map, List.mem_range] at hb
  obtain ⟨k, hk, rfl⟩ := hb
  have h1 : Int.fmod (Int.fdiv val ((2 : Int) ^ ((7 - k) * 8))) 256 < 256 := by
    rw [Int.fmod_eq_emod _ (by norm_num)]
    exact Int.emod_lt_of_pos _ (by norm_num)
  omega

theorem foldl_shift_eq (bs : List Nat) :
    ∀ acc : Nat, bs.foldl (fun acc b => (acc <<< 8) + b) acc =
      bs.foldl (fun acc b => acc * 256 + b) acc := by
  induction bs with
  | nil => intro acc; rfl
  | cons b bs ih =>
    intro acc
    rw [List.foldl_cons, List.foldl_cons, ih]
    norm_num [Nat.shiftLeft_eq]

theorem bytesBE_succ (n u : Nat) :
    bytesBE (n + 1) u = bytesBE n (u / 256) ++ [u % 256] := by
  unfold bytesBE
  rw [List.range_succ, List.map_append]
  congr 1
  · apply List.map_congr_left
    intro k hk
    rw [List.mem_range] at hk
    have h1 : n + 1 - 1 - k = (n - 1 - k) + 1 := by omega
    have h2 : u / 256 / 256 ^ (n - 1 - k) = u / 256 ^ ((n - 1 - k) + 1) := by
      rw [Nat.div_div_eq_div_mul, mul_comm, ← pow_succ]
    rw [h1, ← h2]
  · simp

theorem decodeBE_append_one (bs : List Nat) (b : Nat) :
    decodeBE (bs ++ [b]) = decodeBE bs * 256 + b := by
  unfold decodeBE
  rw [List.foldl_append]
  rfl

theorem decodeBE_bytesBE (n : Nat) : ∀ u : Nat, decodeBE (bytesBE n u) = u % 256 ^ n := by
  induction n with
  | zero => intro u; simp [bytesBE, decodeBE, Nat.mod_one]
  | succ n ih =>
    intro u
    rw [bytesBE_succ, decodeBE_append_one, ih]
    have h1 : (256 : Nat) ^ (n + 1) = 256 * 256 ^ n := by
      rw [pow_succ, mul_comm]
    rw [h1, Nat.mod_mul]
    ring

theorem int_byte_eq (val : Int) (j : Nat) (hj : j + 8 ≤ 64) :
    (Int.fmod (Int.fdiv val ((2 : Int) ^ j)) 256).toNat =
      (val % (2 : Int) ^ 64).toNat / 2 ^ j % 256 := by
  have h2j : (0 : Int) ≤ 2 ^ j := by positivity
  have h64 : (0 : Int) < 2 ^ 64 := by positivity
  rw [Int.fdiv_eq_ediv _ h2j, Int.fmod_eq_emod _ (by norm_num)]
  have hr0 : 0 ≤ val % 2 ^ 64 := Int.emod_nonneg val (by positivity)
  have hval : val = val % 2 ^ 64 + 2 ^ (64 - j) * (val / 2 ^ 64) * 2 ^ j := by
    have h1 := Int.ediv_add_emod val (2 ^ 64)
    have h2 : (2 : Int) ^ (64 - j) * 2 ^ j = 2 ^ 64 := by
      rw [← pow_add]
      congr 1
      omega
    calc val = 2 ^ 64 * (val / 2 ^ 64) + val % 2 ^ 64 := h1.symm
    _ = val % 2 ^ 64 + 2 ^ (64 - j) * (val / 2 ^ 64) * 2 ^ j := by rw [← h2]; ring
  have hdiv : val / 2 ^ j = val % 2 ^ 64 / 2 ^ j + 2 ^ (64 - j) * (val / 2 ^ 64) := by
    conv_lhs => rw [hval]
    exact Int.add_mul_ediv_right _ _ (by positivity)
  have hmod : val / 2 ^ j % 256 = val % 2 ^ 64 / 2 ^ j % 256 := by
    rw [hdiv]
    have h3 : (2 : Int) ^ (64 - j) * (val / 2 ^ 64) =
        256 * (2 ^ (64 - j - 8) * (val / 2 ^ 64)) := by
      have h4 : (2 : Int) ^ (64 - j) = 256 * 2 ^ (64 - j - 8) := by
        rw [show (256 : Int) = 2 ^ 8 by norm_num, ← pow_add]
        congr 1
        omega
      rw [h4]; ring
    rw [h3]
    exact Int.add_mul_emod_self_left ..
  rw [hmod]
  have h6 : (((val % 2 ^ 64).toNat / 2 ^ j % 256 : Nat) : Int) = val % 2 ^ 64 / 2 ^ j % 256 := by
    rw [Int.ofNat_emod, Int.ofNat_ediv]
    push_cast
    have hr0b : (0 : Int) ≤ val % 18446744073709551616 := by
      have h9 : ((2 : Int) ^ 64) = 18446744073709551616 := by norm_num
      rw [h9] at hr0
      exact hr0
    rw [Int.toNat_of_nonneg hr0b]
  omega

theorem i64WireBytes_eq (val : Int) :
    i64WireBytes val = bytesBE 8 (val % (2 : Int) ^ 64).toNat := by
  unfold i64WireBytes bytesBE
  apply List.map_congr_left
  intro k hk
  rw [List.mem_range] at hk
  rw [int_byte_eq val ((7 - k) * 8) (by omega)]
  have h1 : (2 : Nat) ^ ((7 - k) * 8) = 256 ^ (8 - 1 - k) := by
    rw [mul_comm, pow_mul]
    norm_num
  rw [h1]

theorem emod64_toNat_lt (val : Int) : (val % (2 : Int) ^ 64).toNat < 256 ^ 8 := by
  have h1 : val % (2 : Int) ^ 64 < 2 ^ 64 := Int.emod_lt_of_pos val (by positivity)
  have h2 : ((256 : Nat) ^ 8 : Nat) = 18446744073709551616 := by norm_num
  have h3 : ((2 : Int) ^ 64) = 18446744073709551616 := by norm_num
  omega

theorem read_next_i64_at (st : ImgHandler) (val : Int)
    (hlo : -9223372036854775808 ≤ val) (hhi : val < 9223372036854775807)
    (hin : ∀ i, i < 8 → inBounds st.w st.h (st.next_byte + i))
    (hb : storedBytes st st.next_byte 8 = i64WireBytes val) :
    read_next_i64 st = .ok (val, { st with next_byte := st.next_byte + 8 }) := by
  have hdec : (i64WireBytes val).foldl (fun acc b => (acc <<< 8) + b) 0 =
      (val % (2 : Int) ^ 64).toNat := by
    rw [foldl_shift_eq, i64WireBytes_eq]
    show decodeBE (bytesBE 8 (val % (2 : Int) ^ 64).toNat) = _
    rw [decodeBE_bytesBE]
    exact Nat.mod_eq_of_lt (emod64_toNat_lt val)
  have h3 : ((2 : Int) ^ 64) = 18446744073709551616 := by norm_num
  have hr0 : 0 ≤ val % 2 ^ 64 := Int.emod_nonneg val (by positivity)
  have hrlt : val % (2 : Int) ^ 64 < 2 ^ 64 := Int.emod_lt_of_pos val (by positivity)
  have hcast : (((val % (2 : Int) ^ 64).toNat : Int)) = val % 2 ^ 64 :=
    Int.toNat_of_nonneg hr0
  have hval : (((val % (2 : Int) ^ 64).toNat : Int)) -
      (if I64MAX ≤ (((val % (2 : Int) ^ 64).toNat : Int)) then U64MAX + 1 else 0) = val := by
    rw [hcast, I64MAX, U64MAX]
    by_cases hpos : 0 ≤ val
    · have hmod : val % 2 ^ 64 = val := Int.emod_eq_of_lt hpos (by omega)
      rw [hmod, if_neg (by omega)]
      omega
    · have hmod : val % 2 ^ 64 = val + 2 ^ 64 := by
        have ha : (val + 2 ^ 64) % 2 ^ 64 = val % 2 ^ 64 := by
          have h7 := Int.add_mul_emod_self_left val ((2 : Int) ^ 64) 1
          rw [mul_one] at h7
          exact h7
        have hb2 : (val + 2 ^ 64) % 2 ^ 64 = val + 2 ^ 64 :=
          Int.emod_eq_of_lt (by omega) (by omega)
        omega
      rw [hmod, if_pos (by omega)]
      omega
  unfold read_next_i64
  rw [read_next_bytes_ok 8 st hin, hb]
  show Except.ok ((((i64WireBytes val).foldl (fun acc b => (acc <<< 8) + b) 0 : Nat) : Int) -
      (if I64MAX ≤ (((i64WireBytes val).foldl (fun acc b => (acc <<< 8) + b) 0 : Nat) : Int)
        then U64MAX + 1 else 0),
      { st with next_byte := st.next_byte + 8 }) = _
  rw [hdec, hval]

theorem read_next_string_at (st : ImgHandler) (s : List Nat)
    (hlen : s.length < 9223372036854775807)
    (hin : ∀ i, i < 8 + s.length → inBounds st.w st.h (st.next_byte + i))
    (hb : storedBytes st st.next_byte (8 + s.length) = i64WireBytes (s.length : Int) ++ s) :
    read_next_string st = .ok (s, { st with next_byte := st.next_byte + (8 + s.length) }) := by
  rw [storedBytes_add st 8] at hb
  obtain ⟨hb1, hb2⟩ := List.append_inj hb (by rw [storedBytes_length, i64WireBytes_length])
  unfold read_next_string
  rw [read_next_i64_at st (s.length : Int) (by omega) (by omega) (fun i hi => hin i (by omega))
    hb1]
  show (match read_next_bytes ((s.length : Int)).toNat
      { st with next_byte := st.next_byte + 8 } with
    | .error e => Except.error e
    | .ok (bs, st2) => Except.ok (bs, st2)) = _
  rw [Int.toNat_natCast]
  have hins : ∀ i, i < s.length →
      inBounds st.w st.h ({ st with next_byte := st.next_byte + 8 }.next_byte + i) := by
    intro i hi
    have h1 := hin (8 + i) (by omega)
    show inBounds st.w st.h (st.next_byte + 8 + i)
    have h2 : st.next_byte + (8 + i) = st.next_byte + 8 + i := by omega
    rw [h2] at h1
    exact h1
  rw [read_next_bytes_ok s.length _ hins]
  show Except.ok (storedBytes { st with next_byte := st.next_byte + 8 } (st.next_byte + 8)
      s.length, { st with next_byte := st.next_byte + 8 + s.length }) = _
  rw [storedBytes_cursor, hb2]
  have h3 : st.next_byte + 8 + s.length = st.next_byte + (8 + s.length) := by omega
  rw [h3]

theorem write_next_i32_eq (val : Int) (st : ImgHandler) :
    write_next_i32 val st = writeBytes (i32WireBytes val) st := by
  unfold write_next_i32 i32WireBytes
  exact foldlM_write_map _ _ st

theorem i32WireBytes_length (val : Int) : (i32WireBytes val).length = 4 := by
  simp [i32WireBytes]

theorem i32WireBytes_lt (val : Int) : ∀ b ∈ i32WireBytes val, b < 256 := by
  intro b hb
  simp only [i32WireBytes, List.mem_map, List.mem_range] at hb
  obtain ⟨k, hk, rfl⟩ := hb
  have h1 : Int.fmod (Int.fdiv val ((2 : Int) ^ ((3 - k) * 8))) 256 < 256 := by
    rw [Int.fmod_eq_emod _ (by norm_num)]
    exact Int.emod_lt_of_pos _ (by norm_num)
  omega

theorem int_byte_eq32 (val : Int) (j : Nat) (hj : j + 8 ≤ 32) :
    (Int.fmod (Int.fdiv val ((2 : Int) ^ j)) 256).toNat =
      (val % (2 : Int) ^ 32).toNat / 2 ^ j % 256 := by
  have h2j : (0 : Int) ≤ 2 ^ j := by positivity
  have h32 : (0 : Int) < 2 ^ 32 := by positivity
  rw [Int.fdiv_eq_ediv _ h2j, Int.fmod_eq_emod _ (by norm_num)]
  have hr0 : 0 ≤ val % 2 ^ 32 := Int.emod_nonneg val (by positivity)
  have hval : val = val % 2 ^ 32 + 2 ^ (32 - j) * (val / 2 ^ 32) * 2 ^ j := by
    have h1 := Int.ediv_add_emod val (2 ^ 32)
    have h2 : (2 : Int) ^ (32 - j) * 2 ^ j = 2 ^ 32 := by
      rw [← pow_add]
      congr 1
      omega
    calc val = 2 ^ 32 * (val / 2 ^ 32) + val % 2 ^ 32 := h1.symm
    _ = val % 2 ^ 32 + 2 ^ (32 - j) * (val / 2 ^ 32) * 2 ^ j := by rw [← h2]; ring
  have hdiv : val / 2 ^ j = val % 2 ^ 32 / 2 ^ j + 2 ^ (32 - j) * (val / 2 ^ 32) := by
    conv_lhs => rw [hval]
    exact Int.add_mul_ediv_right _ _ (by positivity)
  have hmod : val / 2 ^ j % 256 = val % 2 ^ 32 / 2 ^ j % 256 := by
    rw [hdiv]
    have h3 : (2 : Int) ^ (32 - j) * (val / 2 ^ 32) =
        256 * (2 ^ (32 - j - 8) * (val / 2 ^ 32)) := by
      have h4 : (2 : Int) ^ (32 - j) = 256 * 2 ^ (32 - j - 8) := by
        rw [show (256 : Int) = 2 ^ 8 by norm_num, ← pow_add]
        congr 1
        omega
      rw [h4]; ring
    rw [h3]
    exact Int.add_mul_emod_self_left ..
  rw [hmod]
  have h6 : (((val % 2 ^ 32).toNat / 2 ^ j % 256 : Nat) : Int) = val % 2 ^ 32 / 2 ^ j % 256 := by
    rw [Int.ofNat_emod, Int.ofNat_ediv]
    push_cast
    have hr0b : (0 : Int) ≤ val % 4294967296 := by
      have h9 : ((2 : Int) ^ 32) = 4294967296 := by norm_num
      rw [h9] at hr0
      exact hr0
    rw [Int.toNat_of_nonneg hr0b]
  omega

theorem i32WireBytes_eq (val : Int) :
    i32WireBytes val = bytesBE 4 (val % (2 : Int) ^ 32).toNat := by
  unfold i32WireBytes bytesBE
  apply List.map_congr_left
  intro k hk
  rw [List.mem_range] at hk
  rw [int_byte_eq32 val ((3 - k) * 8) (by omega)]
  have h1 : (2 : Nat) ^ ((3 - k) * 8) = 256 ^ (4 - 1 - k) := by
    rw [mul_comm, pow_mul]
    norm_num
  rw [h1]

theorem emod32_toNat_lt (val : Int) : (val % (2 : Int) ^ 32).toNat < 256 ^ 4 := by
  have h1 : val % (2 : Int) ^ 32 < 2 ^ 32 := Int.emod_lt_of_pos val (by positivity)
  have h2 : ((256 : Nat) ^ 4 : Nat) = 4294967296 := by norm_num
  have h3 : ((2 : Int) ^ 32) = 4294967296 := by norm_num
  omega

theorem read_next_i32_at (st : ImgHandler) (val : Int)
    (hlo : -2147483648 ≤ val) (hhi : val < 2147483647)
    (hin : ∀ i, i < 4 → inBounds st.w st.h (st.next_byte + i))
    (hb : storedBytes st st.next_byte 4 = i32WireBytes val) :
    read_next_i32 st = .ok (val, { st with next_byte := st.next_byte + 4 }) := by
  have hdec : (i32WireBytes val).foldl (fun acc b => (acc <<< 8) + b) 0 =
      (val % (2 : Int) ^ 32).toNat := by
    rw [foldl_shift_eq, i32WireBytes_eq]
    show decodeBE (bytesBE 4 (val % (2 : Int) ^ 32).toNat) = _
    rw [decodeBE_bytesBE]
    exact Nat.mod_eq_of_lt (emod32_toNat_lt val)
  have h3 : ((2 : Int) ^ 32) = 4294967296 := by norm_num
  have hr0 : 0 ≤ val % 2 ^ 32 := Int.emod_nonneg val (by positivity)
  have hrlt : val % (2 : Int) ^ 32 < 2 ^ 32 := Int.emod_lt_of_pos val (by positivity)
  have hcast : (((val % (2 : Int) ^ 32).toNat : Int)) = val % 2 ^ 32 :=
    Int.toNat_of_nonneg hr0
  have hval : (((val % (2 : Int) ^ 32).toNat : Int)) -
      (if I32MAX ≤ (((val % (2 : Int) ^ 32).toNat : Int)) then U32MAX + 1 else 0) = val := by
    rw [hcast, I32MAX, U32MAX]
    by_cases hpos : 0 ≤ val
    · have hmod : val % 2 ^ 32 = val := Int.emod_eq_of_lt hpos (by omega)
      rw [hmod, if_neg (by omega)]
      omega
    · have hmod : val % 2 ^ 32 = val + 2 ^ 32 := by
        have ha : (val + 2 ^ 32) % 2 ^ 32 = val % 2 ^ 32 := by
          have h7 := Int.add_mul_emod_self_left val ((2 : Int) ^ 32) 1
          rw [mul_one] at h7
          exact h7
        have hb2 : (val + 2 ^ 32) % 2 ^ 32 = val + 2 ^ 32 :=
          Int.emod_eq_of_lt (by omega) (by omega)
        omega
      rw [hmod, if_pos (by omega)]
      omega
  unfold read_next_i32
  rw [read_next_bytes_ok 4 st hin, hb]
  show Except.ok ((((i32WireBytes val).foldl (fun acc b => (acc <<< 8) + b) 0 : Nat) : Int) -
      (if I32MAX ≤ (((i32WireBytes val).foldl (fun acc b => (acc <<< 8) + b) 0 : Nat) : Int)
        then U32MAX + 1 else 0),
      { st with next_byte := st.next_byte + 4 }) = _
  rw [hdec, hval]

mutual
theorem write_next_eq_writeBytes (v : PyValue) :
    ∀ st : ImgHandler, write_next v st = writeBytes (serBytes v) st := by
  cases v with
  | vInt i =>
    intro st
    rw [write_next_int_def, write_next_i64_eq, serBytes]
  | vStr s =>
    intro st
    rw [write_next_str_def, write_next_string_eq, serBytes]
  | vList l =>
    intro st
    rw [write_next, serBytes, writeBytes_append, write_next_i64_eq]
    cases writeBytes (i64WireBytes (l.length : Int)) st with
    | error e => rfl
    | ok st2 => exact writeElems_eq_writeBytes l st2
  | vObj fields =>
    intro st
    rw [write_next, serBytes]
    exact writeElems_eq_writeBytes fields st
termination_by sizeOf v

theorem writeElems_eq_writeBytes (l : List PyValue) :
    ∀ st : ImgHandler, writeElems l st = writeBytes (serList l) st := by
  cases l with
  | nil =>
    intro st
    rw [writeElems_nil_def, serList, writeBytes_nil]
  | cons v vs =>
    intro st
    rw [writeElems_cons_def, serList, writeBytes_append, write_next_eq_writeBytes v st]
    cases writeBytes (serBytes v) st with
    | error e => rfl
    | ok st2 => exact writeElems_eq_writeBytes vs st2
termination_by sizeOf l
end

theorem write_next_list_eq (l : List PyValue) (st : ImgHandler) :
    write_next_list l st =
      writeBytes (i64WireBytes (l.length : Int) ++ serList l) st := by
  unfold write_next_list
  rw [writeBytes_append, write_next_i64_eq]
  cases writeBytes (i64WireBytes (l.length : Int)) st with
  | error e => rfl
  | ok st2 => exact writeElems_eq_writeBytes l st2

mutual
theorem serBytes_lt (v : PyValue) :
    goodValue v = true → ∀ b ∈ serBytes v, b < 256 := by
  cases v with
  | vInt i =>
    intro _ b hb
    rw [serBytes] at hb
    exact i64WireBytes_lt _ b hb
  | vStr s =>
    intro hg b hb
    rw [serBytes, List.mem_append] at hb
    rcases hb with hb | hb
    · exact i64WireBytes_lt _ b hb
    · rw [goodValue] at hg
      simp only [Bool.and_eq_true, List.all_eq_true, decide_eq_true_eq] at hg
      exact hg.1 b hb
  | vList l =>
    intro hg b hb
    rw [serBytes, List.mem_append] at hb
    rcases hb with hb | hb
    · exact i64WireBytes_lt _ b hb
    · rw [goodValue] at hg
      simp only [Bool.and_eq_true, decide_eq_true_eq] at hg
      exact serList_lt l hg.2 b hb
  | vObj fields =>
    intro hg b hb
    rw [serBytes] at hb
    rw [goodValue] at hg
    exact serList_lt fields hg b hb
termination_by sizeOf v

theorem serList_lt (l : List PyValue) :
    goodList l = true → ∀ b ∈ serList l, b < 256 := by
  cases l with
  | nil =>
    intro _ b hb
    rw [serList] at hb
    exact absurd hb (by simp)
  | cons v vs =>
    intro hg b hb
    rw [goodList] at hg
    simp only [Bool.and_eq_true] at hg
    rw [serList, List.mem_append] at hb
    rcases hb with hb | hb
    · exact serBytes_lt v hg.1 b hb
    · exact serList_lt vs hg.2 b hb
termination_by sizeOf l
end

mutual
theorem readBack (v : PyValue) :
    ∀ (ty : PyType) (st : ImgHandler), hasTy v ty = true → goodValue v = true →
      (∀ i, i < (serBytes v).length → inBounds st.w st.h (st.next_byte + i)) →
      storedBytes st st.next_byte (serBytes v).length = serBytes v →
      read_next ty st =
        .ok (v, { st with next_byte := st.next_byte + (serBytes v).length }) := by
  cases v with
  | vInt i =>
    intro ty st hty hg hin hb
    cases ty with
    | tInt =>
      rw [read_next_int_def]
      rw [goodValue] at hg
      simp only [Bool.and_eq_true, decide_eq_true_eq] at hg
      have h8 : (serBytes (.vInt i)).length = 8 := by
        rw [serBytes, i64WireBytes_length]
      rw [h8] at hin hb
      rw [serBytes] at hb
      rw [read_next_i64_at st i (by omega) (by omega) hin hb, h8]
    | tStr => simp [hasTy] at hty
    | tList e => simp [hasTy] at hty
    | tObj shape => simp [hasTy] at hty
  | vStr s =>
    intro ty st hty hg hin hb
    cases ty with
    | tStr =>
      rw [read_next_str_def]
      rw [goodValue] at hg
      simp only [Bool.and_eq_true, List.all_eq_true, decide_eq_true_eq] at hg
      have hsl : (serBytes (.vStr s)).length = 8 + s.length := by
        rw [serBytes, List.length_append, i64WireBytes_length]
      rw [hsl] at hin hb
      rw [serBytes] at hb
      rw [read_next_string_at st s hg.2 hin hb, hsl]
    | tInt => simp [hasTy] at hty
    | tList e => simp [hasTy] at hty
    | tObj shape => simp [hasTy] at hty
  | vList l =>
    intro ty st hty hg hin hb
    cases ty with
    | tList e =>
      rw [hasTy] at hty
      rw [goodValue] at hg
      simp only [Bool.and_eq_true, decide_eq_true_eq] at hg
      obtain ⟨hglen, hgl⟩ := hg
      have hsl : (serBytes (.vList l)).length = 8 + (serList l).length := by
        rw [serBytes, List.length_append, i64WireBytes_length]
      rw [hsl] at hin hb
      rw [serBytes, storedBytes_add st 8] at hb
      obtain ⟨hb1, hb2⟩ :=
        List.append_inj hb (by rw [storedBytes_length, i64WireBytes_length])
      have hi64 := read_next_i64_at st (l.length : Int) (by omega) (by omega)
        (fun i hi => hin i (by omega)) hb1
      have hloopB : ∀ i, i < (serList l).length →
          inBounds st.w st.h
            ({ st with next_byte := st.next_byte + 8 }.next_byte + i) := by
        intro i hi
        have h1 := hin (8 + i) (by omega)
        show inBounds st.w st.h (st.next_byte + 8 + i)
        have h2 : st.next_byte + (8 + i) = st.next_byte + 8 + i := by omega
        rw [h2] at h1
        exact h1
      have hloopS : storedBytes { st with next_byte := st.next_byte + 8 }
          ({ st with next_byte := st.next_byte + 8 }.next_byte) (serList l).length =
          serList l := by
        show storedBytes { st with next_byte := st.next_byte + 8 } (st.next_byte + 8)
          (serList l).length = serList l
        rw [storedBytes_cursor]
        exact hb2
      have hloop := readBackLoop l e { st with next_byte := st.next_byte + 8 }
        hty hgl hloopB hloopS
      rw [read_next_listty_def, read_next_list, hi64]
      show (match readLoop (read_next e) ((l.length : Int)).toNat
          { st with next_byte := st.next_byte + 8 } with
        | .error e2 => Except.error e2
        | .ok (l2, st2) => Except.ok (PyValue.vList l2, st2)) = _
      rw [Int.toNat_natCast, hloop]
      show Except.ok (PyValue.vList l,
          { st with next_byte := st.next_byte + 8 + (serList l).length }) = _
      rw [hsl]
      have h3 : st.next_byte + 8 + (serList l).length =
          st.next_byte + (8 + (serList l).length) := by omega
      rw [h3]
    | tInt => simp [hasTy] at hty
    | tStr => simp [hasTy] at hty
    | tObj shape => simp [hasTy] at hty
  | vObj fields =>
    intro ty st hty hg hin hb
    cases ty with
    | tObj shape =>
      rw [hasTy] at hty
      rw [goodValue] at hg
      have hser : (serBytes (.vObj fields)).length = (serList fields).length := by
        rw [serBytes]
      rw [hser] at hin hb
      rw [serBytes] at hb
      rw [read_next_obj_def, read_next_object, img_deserialize]
      rw [readBackShape fields shape st hty hg hin hb, hser]
    | tInt => simp [hasTy] at hty
    | tStr => simp [hasTy] at hty
    | tList e => simp [hasTy] at hty
termination_by sizeOf v

theorem readBackLoop (l : List PyValue) :
    ∀ (e : PyType) (st : ImgHandler), hasTyList l e = true → goodList l = true →
      (∀ i, i < (serList l).length → inBounds st.w st.h (st.next_byte + i)) →
      storedBytes st st.next_byte (serList l).length = serList l →
      readLoop (read_next e) l.length st =
        .ok (l, { st with next_byte := st.next_byte + (serList l).length }) := by
  cases l with
  | nil =>
    intro e st _ _ _ _
    rw [List.length_nil, readLoop_zero_def, serList]
    simp
  | cons v vs =>
    intro e st hty hg hin hb
    rw [hasTyList] at hty
    rw [goodList] at hg
    simp only [Bool.and_eq_true] at hty hg
    rw [serList, List.length_append] at hin hb
    rw [storedBytes_add st (serBytes v).length] at hb
    obtain ⟨hb1, hb2⟩ := List.append_inj hb (by rw [storedBytes_length])
    have hv := readBack v e st hty.1 hg.1 (fun i hi => hin i (by omega)) hb1
    have hvsB : ∀ i, i < (serList vs).length →
        inBounds st.w st.h
          ({ st with next_byte := st.next_byte + (serBytes v).length }.next_byte + i) := by
      intro i hi
      have h1 := hin ((serBytes v).length + i) (by omega)
      show inBounds st.w st.h (st.next_byte + (serBytes v).length + i)
      have h2 : st.next_byte + ((serBytes v).length + i) =
          st.next_byte + (serBytes v).length + i := by omega
      rw [h2] at h1
      exact h1
    have hvsS : storedBytes { st with next_byte := st.next_byte + (serBytes v).length }
        ({ st with next_byte := st.next_byte + (serBytes v).length }.next_byte)
        (serList vs).length = serList vs := by
      show storedBytes { st with next_byte := st.next_byte + (serBytes v).length }
        (st.next_byte + (serBytes v).length) (serList vs).length = serList vs
      rw [storedBytes_cursor]
      exact hb2
    have hvs := readBackLoop vs e
      { st with next_byte := st.next_byte + (serBytes v).length } hty.2 hg.2 hvsB hvsS
    show readLoop (read_next e) (vs.length + 1) st = _
    rw [readLoop_succ_def, hv]
    show (match readLoop (read_next e) vs.length
        { st with next_byte := st.next_byte + (serBytes v).length } with
      | .error e2 => Except.error e2
      | .ok (vs2, st2) => Except.ok (v :: vs2, st2)) = _
    rw [hvs]
    show Except.ok (v :: vs,
        { st with next_byte := st.next_byte + (serBytes v).length + (serList vs).length }) = _
    have h3 : st.next_byte + (serBytes v).length + (serList vs).length =
        st.next_byte + ((serBytes v).length + (serList vs).length) := by omega
    rw [h3, serList, List.length_append]
termination_by sizeOf l

theorem readBackShape (fields : List PyValue) :
    ∀ (shape : List PyType) (st : ImgHandler), hasTyFields fields shape = true →
      goodList fields = true →
      (∀ i, i < (serList fields).length → inBounds st.w st.h (st.next_byte + i)) →
      storedBytes st st.next_byte (serList fields).length = serList fields →
      readShape shape st =
        .ok (fields, { st with next_byte := st.next_byte + (serList fields).length }) := by
  cases fields with
  | nil =>
    intro shape st hty _ _ _
    cases shape with
    | nil =>
      rw [readShape_nil_def, serList]
      simp
    | cons t ts => simp [hasTyFields] at hty
  | cons v vs =>
    intro shape st hty hg hin hb
    cases shape with
    | nil => simp [hasTyFields] at hty
    | cons t ts =>
      rw [hasTyFields] at hty
      rw [goodList] at hg
      simp only [Bool.and_eq_true] at hty hg
      rw [serList, List.length_append] at hin hb
      rw [storedBytes_add st (serBytes v).length] at hb
      obtain ⟨hb1, hb2⟩ := List.append_inj hb (by rw [storedBytes_length])
      have hv := readBack v t st hty.1 hg.1 (fun i hi => hin i (by omega)) hb1
      have hvsB : ∀ i, i < (serList vs).length →
          inBounds st.w st.h
            ({ st with next_byte := st.next_byte + (serBytes v).length }.next_byte + i) := by
        intro i hi
        have h1 := hin ((serBytes v).length + i) (by omega)
        show inBounds st.w st.h (st.next_byte + (serBytes v).length + i)
        have h2 : st.next_byte + ((serBytes v).length + i) =
            st.next_byte + (serBytes v).length + i := by omega
        rw [h2] at h1
        exact h1
      have hvsS : storedBytes { st with next_byte := st.next_byte + (serBytes v).length }
          ({ st with next_byte := st.next_byte + (serBytes v).length }.next_byte)
          (serList vs).length = serList vs := by
        show storedBytes { st with next_byte := st.next_byte + (serBytes v).length }
          (st.next_byte + (serBytes v).length) (serList vs).length = serList vs
        rw [storedBytes_cursor]
        exact hb2
      have hvs := readBackShape vs ts
        { st with next_byte := st.next_byte + (serBytes v).length } hty.2 hg.2 hvsB hvsS
      rw [readShape_cons_def, hv]
      show (match readShape ts
          { st with next_byte := st.next_byte + (serBytes v).length } with
        | .error e2 => Except.error e2
        | .ok (vs2, st2) => Except.ok (v :: vs2, st2)) = _
      rw [hvs]
      show Except.ok (v :: vs,
          { st with
            next_byte := st.next_byte + (serBytes v).length + (serList vs).length }) = _
      have h3 : st.next_byte + (serBytes v).length + (serList vs).length =
          st.next_byte + ((serBytes v).length + (serList vs).length) := by omega
      rw [h3, serList, List.length_append]
termination_by sizeOf fields
end

theorem read_next_byte_pres (st : ImgHandler) (b : Nat) (st' : ImgHandler)
    (h : read_next_byte st = .ok (b, st')) :
    st'.surface = st.surface ∧ st'.w = st.w ∧ st'.h = st.h ∧
      st'.next_byte = st.next_byte + 1 := by
  rw [read_next_byte_eq] at h
  by_cases hin : inBounds st.w st.h st.next_byte
  · rw [if_pos hin] at h
    simp only [Except.ok.injEq, Prod.mk.injEq] at h
    obtain ⟨-, h2⟩ := h
    subst h2
    exact ⟨rfl, rfl, rfl, rfl⟩
  · rw [if_neg hin] at h
    exact absurd h (by simp)

theorem read_next_i64_pres (st : ImgHandler) (v : Int) (st' : ImgHandler)
    (h : read_next_i64 st = .ok (v, st')) :
    st'.surface = st.surface ∧ st'.w = st.w ∧ st'.h = st.h := by
  unfold read_next_i64 at h
  cases hb : read_next_bytes 8 st with
  | error e => rw [hb] at h; exact absurd h (by simp)
  | ok p =>
    obtain ⟨bs, st2⟩ := p
    rw [hb] at h
    obtain ⟨h1, h2, h3, -⟩ := read_next_bytes_pres 8 st bs st2 hb
    simp only [Except.ok.injEq, Prod.mk.injEq] at h
    obtain ⟨-, h4⟩ := h
    subst h4
    exact ⟨h1, h2, h3⟩

theorem read_next_i32_pres (st : ImgHandler) (v : Int) (st' : ImgHandler)
    (h : read_next_i32 st = .ok (v, st')) :
    st'.surface = st.surface ∧ st'.w = st.w ∧ st'.h = st.h := by
  unfold read_next_i32 at h
  cases hb : read_next_bytes 4 st with
  | error e => rw [hb] at h; exact absurd h (by simp)
  | ok p =>
    obtain ⟨bs, st2⟩ := p
    rw [hb] at h
    obtain ⟨h1, h2, h3, -⟩ := read_next_bytes_pres 4 st bs st2 hb
    simp only [Except.ok.injEq, Prod.mk.injEq] at h
    obtain ⟨-, h4⟩ := h
    subst h4
    exact ⟨h1, h2, h3⟩

theorem read_next_string_pres (st : ImgHandler) (s : List Nat) (st' : ImgHandler)
    (h : read_next_string st = .ok (s, st')) :
    st'.surface = st.surface ∧ st'.w = st.w ∧ st'.h = st.h := by
  unfold read_next_string at h
  cases hi : read_next_i64 st with
  | error e => rw [hi] at h; exact absurd h (by simp)
  | ok p =>
    obtain ⟨size, st1⟩ := p
    rw [hi] at h
    have h9 : (match read_next_bytes size.toNat st1 with
      | .error e => Except.error e
      | .ok (bs, st) => Except.ok (ε := Err) (bs, st)) = Except.ok (s, st') := h
    cases hb : read_next_bytes size.toNat st1 with
    | error e => rw [hb] at h9; exact absurd h9 (by simp)
    | ok q =>
      obtain ⟨bs, st2⟩ := q
      rw [hb] at h9
      simp only [Except.ok.injEq, Prod.mk.injEq] at h9
      obtain ⟨-, h4⟩ := h9
      subst h4
      obtain ⟨a1, a2, a3⟩ := read_next_i64_pres st size st1 hi
      obtain ⟨b1, b2, b3, -⟩ := read_next_bytes_pres size.toNat st1 bs st2 hb
      exact ⟨by rw [b1, a1], by rw [b2, a2], by rw [b3, a3]⟩

theorem readLoop_pres (f : ImgHandler → Except Err (PyValue × ImgHandler))
    (hf : ∀ st v st', f st = .ok (v, st') →
      st'.surface = st.surface ∧ st'.w = st.w ∧ st'.h = st.h)
    (n : Nat) :
    ∀ st l st', readLoop f n st = .ok (l, st') →
      st'.surface = st.surface ∧ st'.w = st.w ∧ st'.h = st.h := by
  induction n with
  | zero =>
    intro st l st' h
    rw [readLoop_zero_def] at h
    simp only [Except.ok.injEq, Prod.mk.injEq] at h
    obtain ⟨-, h2⟩ := h
    subst h2
    exact ⟨rfl, rfl, rfl⟩
  | succ n ih =>
    intro st l st' h
    rw [readLoop_succ_def] at h
    cases hf1 : f st with
    | error e => rw [hf1] at h; exact absurd h (by simp)
    | ok p =>
      obtain ⟨v, st1⟩ := p
      rw [hf1] at h
      have h9 : (match readLoop f n st1 with
        | .error e => Except.error e
        | .ok (vs, st) => Except.ok (ε := Err) (v :: vs, st)) = Except.ok (l, st') := h
      cases hrec : readLoop f n st1 with
      | error e => rw [hrec] at h9; exact absurd h9 (by simp)
      | ok q =>
        obtain ⟨vs, st2⟩ := q
        rw [hrec] at h9
        simp only [Except.ok.injEq, Prod.mk.injEq] at h9
        obtain ⟨-, h2⟩ := h9
        subst h2
        obtain ⟨a1, a2, a3⟩ := hf st v st1 hf1
        obtain ⟨b1, b2, b3⟩ := ih st1 vs st2 hrec
        exact ⟨by rw [b1, a1], by rw [b2, a2], by rw [b3, a3]⟩

mutual
theorem read_next_pres (ty : PyType) :
    ∀ st v st', read_next ty st = .ok (v, st') →
      st'.surface = st.surface ∧ st'.w = st.w ∧ st'.h = st.h := by
  cases ty with
  | tInt =>
    intro st v st' h
    rw [read_next_int_def] at h
    cases hi : read_next_i64 st with
    | error e => rw [hi] at h; exact absurd h (by simp)
    | ok p =>
      obtain ⟨i, st1⟩ := p
      rw [hi] at h
      simp only [Except.ok.injEq, Prod.mk.injEq] at h
      obtain ⟨-, h2⟩ := h
      subst h2
      exact read_next_i64_pres st i _ hi
  | tStr =>
    intro st v st' h
    rw [read_next_str_def] at h
    cases hi : read_next_string st with
    | error e => rw [hi] at h; exact absurd h (by simp)
    | ok p =>
      obtain ⟨s, st1⟩ := p
      rw [hi] at h
      simp only [Except.ok.injEq, Prod.mk.injEq] at h
      obtain ⟨-, h2⟩ := h
      subst h2
      exact read_next_string_pres st s _ hi
  | tList e =>
    intro st v st' h
    rw [read_next_listty_def] at h
    cases hl : read_next_list e st with
    | error e2 => rw [hl] at h; exact absurd h (by simp)
    | ok p =>
      obtain ⟨l, st1⟩ := p
      rw [hl] at h
      simp only [Except.ok.injEq, Prod.mk.injEq] at h
      obtain ⟨-, h2⟩ := h
      subst h2
      unfold read_next_list at hl
      cases hi : read_next_i64 st with
      | error e2 => rw [hi] at hl; exact absurd hl (by simp)
      | ok q =>
        obtain ⟨size, st2⟩ := q
        rw [hi] at hl
        obtain ⟨a1, a2, a3⟩ := read_next_i64_pres st size st2 hi
        obtain ⟨b1, b2, b3⟩ := readLoop_pres (read_next e)
          (fun s2 v2 s3 hh => read_next_pres e s2 v2 s3 hh) size.toNat st2 l st1 hl
        exact ⟨by rw [b1, a1], by rw [b2, a2], by rw [b3, a3]⟩
  | tObj shape =>
    intro st v st' h
    rw [read_next_obj_def] at h
    cases ho : read_next_object shape st with
    | error e => rw [ho] at h; exact absurd h (by simp)
    | ok p =>
      obtain ⟨fields, st1⟩ := p
      rw [ho] at h
      simp only [Except.ok.injEq, Prod.mk.injEq] at h
      obtain ⟨-, h2⟩ := h
      subst h2
      exact readShape_pres shape st fields _ ho
termination_by sizeOf ty

theorem readShape_pres (shape : List PyType) :
    ∀ st vs st', readShape shape st = .ok (vs, st') →
      st'.surface = st.surface ∧ st'.w = st.w ∧ st'.h = st.h := by
  cases shape with
  | nil =>
    intro st vs st' h
    rw [readShape_nil_def] at h
    simp only [Except.ok.injEq, Prod.mk.injEq] at h
    obtain ⟨-, h2⟩ := h
    subst h2
    exact ⟨rfl, rfl, rfl⟩
  | cons t ts =>
    intro st vs st' h
    rw [readShape_cons_def] at h
    cases h1 : read_next t st with
    | error e => rw [h1] at h; exact absurd h (by simp)
    | ok p =>
      obtain ⟨v, st1⟩ := p
      rw [h1] at h
      have h9 : (match readShape ts st1 with
        | .error e => Except.error e
        | .ok (vs, st) => Except.ok (ε := Err) (v :: vs, st)) = Except.ok (vs, st') := h
      cases h2 : readShape ts st1 with
      | error e => rw [h2] at h9; exact absurd h9 (by simp)
      | ok q =>
        obtain ⟨vs2, st2⟩ := q
        rw [h2] at h9
        simp only [Except.ok.injEq, Prod.mk.injEq] at h9
        obtain ⟨-, h3⟩ := h9
        subst h3
        obtain ⟨a1, a2, a3⟩ := read_next_pres t st v st1 h1
        obtain ⟨b1, b2, b3⟩ := readShape_pres ts st1 vs2 st2 h2
        exact ⟨by rw [b1, a1], by rw [b2, a2], by rw [b3, a3]⟩
termination_by sizeOf shape
end

theorem read_next_list_pres (e : PyType) (st : ImgHandler) (l : List PyValue)
    (st' : ImgHandler) (h : read_next_list e st = .ok (l, st')) :
    st'.surface = st.surface ∧ st'.w = st.w ∧ st'.h = st.h := by
  unfold read_next_list at h
  cases hi : read_next_i64 st with
  | error e2 => rw [hi] at h; exact absurd h (by simp)
  | ok q =>
    obtain ⟨size, st2⟩ := q
    rw [hi] at h
    obtain ⟨a1, a2, a3⟩ := read_next_i64_pres st size st2 hi
    obtain ⟨b1, b2, b3⟩ := readLoop_pres (read_next e)
      (fun s2 v2 s3 hh => read_next_pres e s2 v2 s3 hh) size.toNat st2 l st' h
    exact ⟨by rw [b1, a1], by rw [b2, a2], by rw [b3, a3]⟩

/-- C1 (counterexample): the round-trip law fails as stated.  Writing the
64-bit integer 9223372036854775807 through the generic `write_next` on a
fresh 8×8 surface and reading it back at the same cursor yields
-9223372036854775809, not the value written: `read_next_i64` subtracts
2^64 already when the unsigned accumulator equals `I64MAX` (2^63 - 1),
because its comparison is `output >= I64MAX` instead of a strict one. -/
theorem c1_roundtrip_fails_at_i64max :
    readAfterWrite (.vInt 9223372036854775807) .tInt (mkImgHandler blackSurface 8 8) =
      .ok (.vInt (-9223372036854775809)) ∧
    (-9223372036854775809 : Int) ≠ 9223372036854775807 := by
  constructor
  · unfold readAfterWrite
    simp only [write_next_int_def, read_next_int_def]
    rfl
  · decide

/-- C1 (amended): the round-trip law `read(write(v), T) = v` holds for every
supported value — 64-bit integers, strings with code points 0–255,
homogeneous lists, protocol objects, and their nestings — written at any
cursor position and read back from the same position over the same surface,
provided every 64-bit integer written to the stream (the integer values and
the string/list length prefixes) lies in `[-2^63, 2^63 - 1)`; the unsigned
pattern `2^63 - 1` itself is mis-decoded by `read_next_i64`. -/
theorem c1_roundtrip (v : PyValue) (ty : PyType) (st : ImgHandler)
    (hty : hasTy v ty = true) (hg : goodValue v = true)
    (hok : (write_next v st).isOk = true) :
    readAfterWrite v ty st = .ok v := by
  cases hw : write_next v st with
  | error e =>
    rw [hw] at hok
    exact Bool.noConfusion hok
  | ok stW =>
    have hw2 := hw
    rw [write_next_eq_writeBytes] at hw2
    obtain ⟨h1, h2, h3, h4, h5, h6⟩ := writeBytes_ok (serBytes v) st stW hw2
    have hstored : storedBytes { stW with next_byte := st.next_byte } st.next_byte
        (serBytes v).length = serBytes v := by
      rw [storedBytes_cursor, h5]
      calc (serBytes v).map (fun b => b % 256)
          = (serBytes v).map id :=
            List.map_congr_left (fun b hb => Nat.mod_eq_of_lt (serBytes_lt v hg b hb))
      _ = serBytes v := List.map_id _
    have hbounds : ∀ i, i < (serBytes v).length →
        inBounds ({ stW with next_byte := st.next_byte }).w
          ({ stW with next_byte := st.next_byte }).h
          (({ stW with next_byte := st.next_byte }).next_byte + i) := by
      intro i hi
      show inBounds stW.w stW.h (st.next_byte + i)
      rw [h1, h2]
      exact h6 i hi
    have hr := readBack v ty { stW with next_byte := st.next_byte } hty hg hbounds hstored
    unfold readAfterWrite
    rw [hw]
    show (match read_next ty { stW with next_byte := st.next_byte } with
      | .error e => Except.error e
      | .ok (r, _) => Except.ok r) = Except.ok v
    rw [hr]

set_option maxRecDepth 100000 in
/-- Witness for the amended C1 round trip: a list of two protocol objects,
each holding a 64-bit integer and a string, written and read back on a
fresh 8×8 surface. -/
theorem c1_roundtrip_witness :
    hasTy (PyValue.vList [.vObj [.vInt 7, .vStr [104, 105]], .vObj [.vInt (-1), .vStr []]])
      (.tList (.tObj [.tInt, .tStr])) = true ∧
    goodValue (PyValue.vList
      [.vObj [.vInt 7, .vStr [104, 105]], .vObj [.vInt (-1), .vStr []]]) = true ∧
    (write_next (PyValue.vList [.vObj [.vInt 7, .vStr [104, 105]], .vObj [.vInt (-1), .vStr []]])
      (mkImgHandler blackSurface 8 8)).isOk = true ∧
    readAfterWrite
      (PyValue.vList [.vObj [.vInt 7, .vStr [104, 105]], .vObj [.vInt (-1), .vStr []]])
      (.tList (.tObj [.tInt, .tStr])) (mkImgHandler blackSurface 8 8) =
      .ok (PyValue.vList [.vObj [.vInt 7, .vStr [104, 105]], .vObj [.vInt (-1), .vStr []]]) := by
  refine ⟨?_, ?_, ?_, ?_⟩
  · simp [hasTy, hasTyList, hasTyFields]
  · simp [goodValue, goodList]
  · simp only [write_next_listv_def, write_next_list, writeElems_cons_def, writeElems_nil_def,
      write_next_obj_def, write_next_object, img_serialize, write_next_int_def,
      write_next_str_def]
    rfl
  · exact c1_roundtrip _ _ _ (by simp [hasTy, hasTyList, hasTyFields])
      (by simp [goodValue, goodList])
      (by simp only [write_next_listv_def, write_next_list, writeElems_cons_def,
            writeElems_nil_def, write_next_obj_def, write_next_object, img_serialize,
            write_next_int_def, write_next_str_def]
          rfl)

/-- C8 (counterexample): `read_next_list` after `write_next_list` does not
always return the written elements: the list `[1, 9223372036854775807, 3]`
of 64-bit integers reads back as `[1, -9223372036854775809, 3]`, because
the middle element hits the `output >= I64MAX` reinterpretation slip in
`read_next_i64`.  (The order and the element count are preserved; the
middle value is not.) -/
theorem c8_list_roundtrip_fails_at_i64max :
    listReadAfterWrite [.vInt 1, .vInt 9223372036854775807, .vInt 3] .tInt
      (mkImgHandler blackSurface 8 8) =
      .ok [.vInt 1, .vInt (-9223372036854775809), .vInt 3] ∧
    ([PyValue.vInt 1, .vInt (-9223372036854775809), .vInt 3] ≠
      [PyValue.vInt 1, .vInt 9223372036854775807, .vInt 3]) := by
  constructor
  · unfold listReadAfterWrite
    simp only [write_next_list, writeElems_cons_def, writeElems_nil_def, write_next_int_def,
      read_next_list, readLoop_succ_def, readLoop_zero_def, read_next_int_def]
    rfl
  · simp

/-- C8 (amended): for every homogeneous list of supported values whose
elements individually round-trip (no 64-bit value equal to 2^63 - 1
anywhere, lengths below 2^63 - 1), `read_next_list` applied after
`write_next_list` over the same stream returns exactly the original list —
the same elements in the same order, with the element count taken from the
8-byte length prefix. -/
theorem c8_list_roundtrip (l : List PyValue) (e : PyType) (st : ImgHandler)
    (hty : hasTyList l e = true) (hg : goodList l = true)
    (hlen : l.length < 9223372036854775807)
    (hok : (write_next_list l st).isOk = true) :
    listReadAfterWrite l e st = .ok l := by
  cases hw : write_next_list l st with
  | error e2 =>
    rw [hw] at hok
    exact Bool.noConfusion hok
  | ok stW =>
    have hw2 := hw
    rw [write_next_list_eq] at hw2
    have hw3 : writeBytes (serBytes (.vList l)) st = .ok stW := by
      rw [serBytes]
      exact hw2
    obtain ⟨h1, h2, h3, h4, h5, h6⟩ := writeBytes_ok (serBytes (.vList l)) st stW hw3
    have hgv : goodValue (.vList l) = true := by
      rw [goodValue]
      simp only [Bool.and_eq_true, decide_eq_true_eq]
      exact ⟨hlen, hg⟩
    have htv : hasTy (.vList l) (.tList e) = true := by
      rw [hasTy]
      exact hty
    have hstored : storedBytes { stW with next_byte := st.next_byte } st.next_byte
        (serBytes (.vList l)).length = serBytes (.vList l) := by
      rw [storedBytes_cursor, h5]
      calc (serBytes (.vList l)).map (fun b => b % 256)
          = (serBytes (.vList l)).map id :=
            List.map_congr_left (fun b hb => Nat.mod_eq_of_lt (serBytes_lt _ hgv b hb))
      _ = serBytes (.vList l) := List.map_id _
    have hbounds : ∀ i, i < (serBytes (.vList l)).length →
        inBounds ({ stW with next_byte := st.next_byte }).w
          ({ stW with next_byte := st.next_byte }).h
          (({ stW with next_byte := st.next_byte }).next_byte + i) := by
      intro i hi
      show inBounds stW.w stW.h (st.next_byte + i)
      rw [h1, h2]
      exact h6 i hi
    have hr := readBack (.vList l) (.tList e) { stW with next_byte := st.next_byte }
      htv hgv hbounds hstored
    rw [read_next_listty_def] at hr
    unfold listReadAfterWrite
    rw [hw]
    show (match read_next_list e { stW with next_byte := st.next_byte } with
      | .error e2 => Except.error e2
      | .ok (r, _) => Except.ok r) = Except.ok l
    cases hl2 : read_next_list e { stW with next_byte := st.next_byte } with
    | error e2 => rw [hl2] at hr; exact absurd hr (by simp)
    | ok p =>
      obtain ⟨l2, st2⟩ := p
      rw [hl2] at hr
      simp only [Except.ok.injEq, Prod.mk.injEq, PyValue.vList.injEq] at hr
      rw [hr.1]

set_option maxRecDepth 100000 in
/-- Witness for the amended C8 list round trip: the 64-bit integer list
`[10, 20, 30]` on a fresh 8×8 surface. -/
theorem c8_list_roundtrip_witness :
    hasTyList [PyValue.vInt 10, .vInt 20, .vInt 30] .tInt = true ∧
    goodList [PyValue.vInt 10, .vInt 20, .vInt 30] = true ∧
    ([PyValue.vInt 10, .vInt 20, .vInt 30].length < 9223372036854775807) ∧
    (write_next_list [PyValue.vInt 10, .vInt 20, .vInt 30]
      (mkImgHandler blackSurface 8 8)).isOk = true ∧
    listReadAfterWrite [PyValue.vInt 10, .vInt 20, .vInt 30] .tInt
      (mkImgHandler blackSurface 8 8) = .ok [PyValue.vInt 10, .vInt 20, .vInt 30] := by
  refine ⟨?_, ?_, ?_, ?_, ?_⟩
  · simp [hasTyList, hasTy]
  · simp [goodList, goodValue]
  · simp
  · simp only [write_next_list, writeElems_cons_def, writeElems_nil_def, write_next_int_def]
    rfl
  · exact c8_list_roundtrip _ _ _ (by simp [hasTyList, hasTy]) (by simp [goodList, goodValue])
      (by simp)
      (by simp only [write_next_list, writeElems_cons_def, writeElems_nil_def,
            write_next_int_def]
          rfl)

/-- C2 (counterexample): the claim requires the `2^width` subtraction to
happen exactly when the high bit of the reassembled unsigned value is set,
so the maximum representable values would read back unchanged.  On a fresh
8×8 surface, writing the maximum 32-bit value `2147483647` with
`write_next_i32` and reading it back with `read_next_i32` yields
`-2147483649`, and likewise `9223372036854775807` through the 64-bit codec
yields `-9223372036854775809`: the source compares `output >= I32MAX`
(resp. `I64MAX`), which already fires at the maximum positive pattern
`2^(width-1) - 1`, whose high bit is clear. -/
theorem c2_boundary_counterexample :
    intRoundTrip32 2147483647 = .ok (-2147483649) ∧
    (-2147483649 : Int) ≠ 2147483647 ∧
    intRoundTrip64 9223372036854775807 = .ok (-9223372036854775809) ∧
    (-9223372036854775809 : Int) ≠ 9223372036854775807 :=
  ⟨rfl, by decide, rfl, by decide⟩

/-- C2 (amended): `read_next_i32`/`read_next_i64` reassemble the bytes
big-endian into an unsigned accumulator and subtract `2^width` exactly when
the accumulator is `≥ 2^(width-1) - 1` (the source constants
`I32MAX`/`I64MAX`), not when the high bit is set.  Hence every
representable value except the maximum round-trips through write-then-read
at any cursor position — in particular the minima `-2147483648` and
`-9223372036854775808` read back unchanged — while the maxima read back
`2^width` lower. -/
theorem c2_signed_reinterpretation :
    (∀ (val : Int) (st : ImgHandler), -2147483648 ≤ val → val < 2147483647 →
      (write_next_i32 val st).isOk = true → i32ReadAfterWrite val st = .ok val) ∧
    (∀ (val : Int) (st : ImgHandler),
      -9223372036854775808 ≤ val → val < 9223372036854775807 →
      (write_next_i64 val st).isOk = true → i64ReadAfterWrite val st = .ok val) ∧
    intRoundTrip32 (-2147483648) = .ok (-2147483648) ∧
    intRoundTrip64 (-9223372036854775808) = .ok (-9223372036854775808) ∧
    intRoundTrip32 2147483647 = .ok (-2147483649) ∧
    intRoundTrip64 9223372036854775807 = .ok (-9223372036854775809) := by
  refine ⟨?_, ?_, rfl, rfl, rfl, rfl⟩
  · intro val st hlo hhi hok
    unfold i32ReadAfterWrite
    cases hw : write_next_i32 val st with
    | error e => rw [hw] at hok; exact Bool.noConfusion hok
    | ok stW =>
      have hw2 := hw
      rw [write_next_i32_eq] at hw2
      obtain ⟨h1, h2, _, _, h5, h6⟩ := writeBytes_ok (i32WireBytes val) st stW hw2
      rw [i32WireBytes_length] at h5 h6
      have hmap : (i32WireBytes val).map (fun b => b % 256) = i32WireBytes val := by
        calc (i32WireBytes val).map (fun b => b % 256)
            = (i32WireBytes val).map id :=
              List.map_congr_left (fun b hb => Nat.mod_eq_of_lt (i32WireBytes_lt val b hb))
          _ = i32WireBytes val := List.map_id _
      have hstored : storedBytes { stW with next_byte := st.next_byte } st.next_byte 4 =
          i32WireBytes val := by
        rw [storedBytes_cursor, h5, hmap]
      have hbounds : ∀ i, i < 4 → inBounds stW.w stW.h (st.next_byte + i) := by
        intro i hi
        rw [h1, h2]
        exact h6 i hi
      have hr := read_next_i32_at { stW with next_byte := st.next_byte } val hlo hhi hbounds
        hstored
      show (match read_next_i32 { stW with next_byte := st.next_byte } with
        | .error e => Except.error e
        | .ok (v, _) => Except.ok v) = Except.ok val
      rw [hr]
  · intro val st hlo hhi hok
    unfold i64ReadAfterWrite
    cases hw : write_next_i64 val st with
    | error e => rw [hw] at hok; exact Bool.noConfusion hok
    | ok stW =>
      have hw2 := hw
      rw [write_next_i64_eq] at hw2
      obtain ⟨h1, h2, _, _, h5, h6⟩ := writeBytes_ok (i64WireBytes val) st stW hw2
      rw [i64WireBytes_length] at h5 h6
      have hmap : (i64WireBytes val).map (fun b => b % 256) = i64WireBytes val := by
        calc (i64WireBytes val).map (fun b => b % 256)
            = (i64WireBytes val).map id :=
              List.map_congr_left (fun b hb => Nat.mod_eq_of_lt (i64WireBytes_lt val b hb))
          _ = i64WireBytes val := List.map_id _
      have hstored : storedBytes { stW with next_byte := st.next_byte } st.next_byte 8 =
          i64WireBytes val := by
        rw [storedBytes_cursor, h5, hmap]
      have hbounds : ∀ i, i < 8 → inBounds stW.w stW.h (st.next_byte + i) := by
        intro i hi
        rw [h1, h2]
        exact h6 i hi
      have hr := read_next_i64_at { stW with next_byte := st.next_byte } val hlo hhi hbounds
        hstored
      show (match read_next_i64 { stW with next_byte := st.next_byte } with
        | .error e => Except.error e
        | .ok (v, _) => Except.ok v) = Except.ok val
      rw [hr]

/-- C2 (witness): the amended round-trip laws at concrete inputs —
`2147483646` through the 32-bit codec and `-1` through the 64-bit codec on
a fresh 8×8 surface. -/
theorem c2_signed_reinterpretation_witness :
    ((-2147483648 : Int) ≤ 2147483646) ∧ ((2147483646 : Int) < 2147483647) ∧
    (write_next_i32 2147483646 (mkImgHandler blackSurface 8 8)).isOk = true ∧
    i32ReadAfterWrite 2147483646 (mkImgHandler blackSurface 8 8) = .ok 2147483646 ∧
    ((-9223372036854775808 : Int) ≤ -1) ∧ ((-1 : Int) < 9223372036854775807) ∧
    (write_next_i64 (-1) (mkImgHandler blackSurface 8 8)).isOk = true ∧
    i64ReadAfterWrite (-1) (mkImgHandler blackSurface 8 8) = .ok (-1) :=
  ⟨by decide, by decide, by rfl,
    c2_signed_reinterpretation.1 2147483646 (mkImgHandler blackSurface 8 8)
      (by decide) (by decide) (by rfl),
    by decide, by decide, by rfl,
    c2_signed_reinterpretation.2.1 (-1) (mkImgHandler blackSurface 8 8)
      (by decide) (by decide) (by rfl)⟩

/-- C7 (counterexample): the claim says a string containing a code point
outside 0–255 makes `write_next_string` fail fast with a distinct
EncodingRange error.  On a fresh 8×8 surface the one-character string with
code point 256 writes successfully — `write_next_string` has no range
check and no EncodingRange error exists anywhere in the codec — and the
code point is silently truncated at the 8-bit channel: it reads back as 0,
so the string does not round-trip. -/
theorem c7_encoding_counterexample :
    (write_next_string [256] (mkImgHandler blackSurface 8 8)).isOk = true ∧
    strRoundTrip [256] = .ok [0] ∧
    ([0] : List Nat) ≠ [256] :=
  ⟨rfl, rfl, by decide⟩

/-- C7 (amended): `write_next_string` performs no code-point range check —
for every string it writes the 8-byte length prefix followed by the raw
code points — and each written code point is stored on the surface reduced
modulo 256, so an out-of-range code point is silently truncated rather
than rejected (code point 256 reads back as 0).  Every string whose code
points all lie in 0–255 (including code point 255 and the empty string)
whose write succeeds round-trips exactly through write-then-read at any
cursor position. -/
theorem c7_string_codec :
    (∀ (s : List Nat) (st : ImgHandler),
      write_next_string s st = writeBytes (i64WireBytes (s.length : Int) ++ s) st) ∧
    (∀ (s : List Nat) (st st' : ImgHandler), write_next_string s st = .ok st' →
      storedBytes st' (st.next_byte + 8) s.length = s.map (fun c => c % 256)) ∧
    (∀ (s : List Nat) (st : ImgHandler),
      s.all (fun c => decide (c < 256)) = true → s.length < 9223372036854775807 →
      (write_next_string s st).isOk = true → stringReadAfterWrite s st = .ok s) ∧
    strRoundTrip [256] = .ok [0] ∧
    strRoundTrip [255] = .ok [255] ∧
    strRoundTrip [] = .ok [] := by
  refine ⟨write_next_string_eq, ?_, ?_, rfl, rfl, rfl⟩
  · intro s st st' hw
    rw [write_next_string_eq] at hw
    obtain ⟨_, _, _, _, h5, _⟩ :=
      writeBytes_ok (i64WireBytes (s.length : Int) ++ s) st st' hw
    rw [List.length_append, i64WireBytes_length, storedBytes_add st' 8, List.map_append]
      at h5
    obtain ⟨_, hb2⟩ := List.append_inj h5
      (by rw [storedBytes_length, List.length_map, i64WireBytes_length])
    exact hb2
  · intro s st hall hlen hok
    unfold stringReadAfterWrite
    cases hw : write_next_string s st with
    | error e => rw [hw] at hok; exact Bool.noConfusion hok
    | ok stW =>
      have hw2 := hw
      rw [write_next_string_eq] at hw2
      obtain ⟨h1, h2, _, _, h5, h6⟩ :=
        writeBytes_ok (i64WireBytes (s.length : Int) ++ s) st stW hw2
      rw [List.length_append, i64WireBytes_length] at h5 h6
      have hall2 : ∀ c ∈ s, c < 256 := by simpa using hall
      have hmap : (i64WireBytes (s.length : Int) ++ s).map (fun b => b % 256) =
          i64WireBytes (s.length : Int) ++ s := by
        rw [List.map_append]
        congr 1
        · calc (i64WireBytes (s.length : Int)).map (fun b => b % 256)
              = (i64WireBytes (s.length : Int)).map id :=
                List.map_congr_left
                  (fun b hb => Nat.mod_eq_of_lt (i64WireBytes_lt (s.length : Int) b hb))
            _ = i64WireBytes (s.length : Int) := List.map_id _
        · calc s.map (fun b => b % 256)
              = s.map id := List.map_congr_left (fun b hb => Nat.mod_eq_of_lt (hall2 b hb))
            _ = s := List.map_id _
      have hstored : storedBytes { stW with next_byte := st.next_byte } st.next_byte
          (8 + s.length) = i64WireBytes (s.length : Int) ++ s := by
        rw [storedBytes_cursor, h5, hmap]
      have hbounds : ∀ i, i < 8 + s.length → inBounds stW.w stW.h (st.next_byte + i) := by
        intro i hi
        rw [h1, h2]
        exact h6 i hi
      have hr := read_next_string_at { stW with next_byte := st.next_byte } s hlen hbounds
        hstored
      show (match read_next_string { stW with next_byte := st.next_byte } with
        | .error e => Except.error e
        | .ok (r, _) => Except.ok r) = Except.ok s
      rw [hr]

/-- C7 (witness): the amended in-range round-trip law at a concrete input —
the string with code points 104, 255 and 0 on a fresh 8×8 surface. -/
theorem c7_string_codec_witness :
    ([104, 255, 0] : List Nat).all (fun c => decide (c < 256)) = true ∧
    ([104, 255, 0] : List Nat).length < 9223372036854775807 ∧
    (write_next_string [104, 255, 0] (mkImgHandler blackSurface 8 8)).isOk = true ∧
    stringReadAfterWrite [104, 255, 0] (mkImgHandler blackSurface 8 8) =
      .ok [104, 255, 0] :=
  ⟨by decide, by decide, by rfl,
    c7_string_codec.2.2.1 [104, 255, 0] (mkImgHandler blackSurface 8 8)
      (by decide) (by decide) (by rfl)⟩

/-- C5 (counterexample): after writing the 64-bit integer 42, the string
"hi" and the list `[1, 2, 3]` of 64-bit integers on a fresh 8×8 surface,
the cursor stands at 50 bytes, not the 45 the claim states: the list costs
8 (length prefix) + 3 × 8 (elements) = 32 bytes, not 27, so the total is
8 + 10 + 32 = 50. -/
theorem c5_cursor_counterexample :
    scenario8x8.map (fun st => st.next_byte) = .ok 50 ∧ (50 : Nat) ≠ 45 := by
  constructor
  · unfold scenario8x8
    simp only [write_next_list, writeElems_cons_def, writeElems_nil_def, write_next_int_def]
    rfl
  · decide

/-- C5 (amended): on an 8×8 surface (192-byte capacity), writing the 64-bit
integer 42, then the string "hi" (code points 104, 105), then the list
`[1, 2, 3]` of 64-bit integers, and reading back in the same order yields
42, "hi" and `[1, 2, 3]`, with the cursor having consumed exactly
8 + 10 + 32 = 50 bytes after the three writes, and the three reads
consuming the same 50 bytes. -/
theorem c5_end_to_end :
    (match scenario8x8 with
     | .error e => Except.error e
     | .ok stW =>
       match read_next_i64 { stW with next_byte := 0 } with
       | .error e => Except.error e
       | .ok (a, st) =>
         match read_next_string st with
         | .error e => Except.error e
         | .ok (s, st) =>
           match read_next_list .tInt st with
           | .error e => Except.error e
           | .ok (l, st) => Except.ok (a, s, l, st.next_byte, stW.next_byte))
    = .ok (42, [104, 105], [PyValue.vInt 1, .vInt 2, .vInt 3], 50, 50) := by
  unfold scenario8x8
  simp only [write_next_list, writeElems_cons_def, writeElems_nil_def, write_next_int_def,
    read_next_list, readLoop_succ_def, readLoop_zero_def, read_next_int_def]
  rfl

set_option linter.unusedVariables false in
theorem inBounds_iff (w h n : Nat) (hw : 1 ≤ w) (hh : 1 ≤ h) :
    inBounds w h n ↔ n < w * h * 3 := by
  constructor
  · rintro ⟨-, h2⟩
    have h3 := (Nat.div_lt_iff_lt_mul (by omega : 0 < w)).mp h2
    have h4 := (Nat.div_lt_iff_lt_mul (by omega : 0 < 3)).mp (show n / 3 < h * w by omega)
    calc n < h * w * 3 := h4
    _ = w * h * 3 := by ring
  · intro hn
    refine ⟨Nat.mod_lt _ (by omega), ?_⟩
    have h3 : n / 3 < h * w := by
      apply (Nat.div_lt_iff_lt_mul (by omega : 0 < 3)).mpr
      calc n < w * h * 3 := hn
      _ = h * w * 3 := by ring
    exact (Nat.div_lt_iff_lt_mul (by omega : 0 < w)).mpr h3

theorem oob_single_ops (st : ImgHandler) (b : Nat)
    (hnin : ¬ inBounds st.w st.h st.next_byte) :
    write_next_byte b st = .error .outOfBounds ∧
    read_next_byte st = .error .outOfBounds ∧
    get_at st (st.next_byte / 3 % st.w) (st.next_byte / 3 / st.w) = .error .outOfBounds := by
  refine ⟨?_, ?_, ?_⟩
  · rw [write_next_byte_eq, if_neg hnin]
  · rw [read_next_byte_eq, if_neg hnin]
  · unfold get_at
    exact if_neg hnin

/-- C3: the byte-to-coordinate mapping.  A single-byte read or write with
cursor value `n = next_byte` on a surface of width `w` accesses channel
`n % 3` of the pixel at `x = n / 3 % w`, `y = n / 3 / w` — 3 bytes per
pixel in channel order, row-major: the read returns exactly that channel of
that pixel and advances the cursor by one; the write replaces exactly that
channel of that pixel (leaving every other pixel as it was) and advances
the cursor by one. -/
theorem c3_byte_coordinate_mapping (st : ImgHandler) (b : Nat)
    (hin : inBounds st.w st.h st.next_byte) :
    read_next_byte st =
      .ok (getChannel (st.surface (st.next_byte / 3 % st.w) (st.next_byte / 3 / st.w))
        (st.next_byte % 3), { st with next_byte := st.next_byte + 1 }) ∧
    write_next_byte b st =
      .ok { st with
        surface := fun x' y' =>
          if x' = st.next_byte / 3 % st.w ∧ y' = st.next_byte / 3 / st.w then
            setChannel (st.surface (st.next_byte / 3 % st.w) (st.next_byte / 3 / st.w))
              (st.next_byte % 3) b
          else st.surface x' y',
        next_byte := st.next_byte + 1 } := by
  constructor
  · rw [read_next_byte_eq, if_pos hin]
    rfl
  · rw [write_next_byte_eq, if_pos hin]
    rfl

/-- Witness for C3 at cursor position 7 on a 4×4 surface: channel
`7 % 3 = 1` of the pixel `(x, y) = (2, 0)`. -/
theorem c3_byte_coordinate_mapping_witness :
    inBounds 4 4 7 ∧
    (read_next_byte ⟨blackSurface, 7, 4, 4⟩ =
      .ok (getChannel (blackSurface 2 0) 1, ⟨blackSurface, 8, 4, 4⟩) ∧
    write_next_byte 9 ⟨blackSurface, 7, 4, 4⟩ =
      .ok (writeByteResult 9 ⟨blackSurface, 7, 4, 4⟩)) :=
  ⟨by decide, c3_byte_coordinate_mapping ⟨blackSurface, 7, 4, 4⟩ 9 (by decide)⟩

/-- C4: out-of-bounds behaviour.  On a `w × h` surface (`w, h ≥ 1`) with a
fresh cursor, writing any sequence of exactly `w * h * 3` bytes succeeds;
after that, one more single-byte write fails with the distinct OutOfBounds
error, and so does a read — and the error is raised by `get_at`, the pixel
read that precedes the only mutation point (`set_at`) in
`write_next_byte`, so the rejected write has not mutated any pixel.  In
general any single-byte access whose resolved pixel coordinate falls
outside `[0,w) × [0,h)` fails this way. -/
theorem c4_out_of_bounds (w h : Nat) (hw : 1 ≤ w) (hh : 1 ≤ h)
    (surf : Nat → Nat → Pixel) (bs : List Nat) (hlen : bs.length = w * h * 3) (b : Nat) :
    (writeBytes bs (mkImgHandler surf w h)).isOk = true ∧
    (∀ st', writeBytes bs (mkImgHandler surf w h) = .ok st' →
      write_next_byte b st' = .error .outOfBounds ∧
      read_next_byte st' = .error .outOfBounds ∧
      get_at st' (st'.next_byte / 3 % st'.w) (st'.next_byte / 3 / st'.w) =
        .error .outOfBounds) ∧
    (∀ st : ImgHandler, ¬ inBounds st.w st.h st.next_byte →
      write_next_byte b st = .error .outOfBounds ∧
      read_next_byte st = .error .outOfBounds ∧
      get_at st (st.next_byte / 3 % st.w) (st.next_byte / 3 / st.w) =
        .error .outOfBounds) := by
  refine ⟨?_, ?_, fun st hnin => oob_single_ops st b hnin⟩
  · have hbnd : ∀ i, i < bs.length → inBounds (mkImgHandler surf w h).w
        (mkImgHandler surf w h).h ((mkImgHandler surf w h).next_byte + i) := by
      intro i hi
      show inBounds w h (0 + i)
      rw [Nat.zero_add, inBounds_iff w h i hw hh]
      omega
    obtain ⟨st', hst'⟩ := writeBytes_total bs (mkImgHandler surf w h) hbnd
    rw [hst']
    rfl
  · intro st' hst'
    obtain ⟨h1, h2, h3, -, -, -⟩ := writeBytes_ok bs (mkImgHandler surf w h) st' hst'
    have hn : st'.next_byte = w * h * 3 := by
      rw [h3]
      show 0 + bs.length = w * h * 3
      omega
    have hnin : ¬ inBounds st'.w st'.h st'.next_byte := by
      rw [h1, h2, hn]
      show ¬ inBounds w h (w * h * 3)
      rw [inBounds_iff w h _ hw hh]
      omega
    exact oob_single_ops st' b hnin

/-- Witness for C4: a 2×2 surface, writing all 12 bytes and then one more. -/
theorem c4_out_of_bounds_witness :
    1 ≤ 2 ∧ 1 ≤ 2 ∧ (List.replicate 12 7).length = 2 * 2 * 3 ∧
    ((writeBytes (List.replicate 12 7) (mkImgHandler blackSurface 2 2)).isOk = true ∧
    (∀ st', writeBytes (List.replicate 12 7) (mkImgHandler blackSurface 2 2) = .ok st' →
      write_next_byte 9 st' = .error .outOfBounds ∧
      read_next_byte st' = .error .outOfBounds ∧
      get_at st' (st'.next_byte / 3 % st'.w) (st'.next_byte / 3 / st'.w) =
        .error .outOfBounds) ∧
    (∀ st : ImgHandler, ¬ inBounds st.w st.h st.next_byte →
      write_next_byte 9 st = .error .outOfBounds ∧
      read_next_byte st = .error .outOfBounds ∧
      get_at st (st.next_byte / 3 % st.w) (st.next_byte / 3 / st.w) =
        .error .outOfBounds)) :=
  ⟨by decide, by decide, by decide,
    c4_out_of_bounds 2 2 (by decide) (by decide) blackSurface (List.replicate 12 7)
      (by decide) 9⟩

/-- C6: pixel isolation.  An in-bounds `write_next_byte b` (with
`b : 0..255`) advances the cursor by exactly one, writes `b` into the
resolved channel of the resolved pixel, leaves the other two channels of
that pixel untouched, and leaves every other pixel of the surface
unchanged.  Concretely: on a 2×2 surface, after one pass stores bytes
`7, 8, 200` in pixel `(0,0)`, a second pass (cursor rewound to 0) writing
bytes `5, 6` into channels 0 and 1 leaves channel 2 of that pixel at 200. -/
theorem c6_pixel_isolation (st : ImgHandler) (b : Nat)
    (hin : inBounds st.w st.h st.next_byte) (hb : b < 256) :
    (∀ st', write_next_byte b st = .ok st' →
      st'.next_byte = st.next_byte + 1 ∧
      getChannel (st'.surface (st.next_byte / 3 % st.w) (st.next_byte / 3 / st.w))
        (st.next_byte % 3) = b ∧
      (∀ c, c < 3 → c ≠ st.next_byte % 3 →
        getChannel (st'.surface (st.next_byte / 3 % st.w) (st.next_byte / 3 / st.w)) c =
          getChannel (st.surface (st.next_byte / 3 % st.w) (st.next_byte / 3 / st.w)) c) ∧
      (∀ x y, ¬(x = st.next_byte / 3 % st.w ∧ y = st.next_byte / 3 / st.w) →
        st'.surface x y = st.surface x y)) ∧
    ((match writeBytes [7, 8, 200] (mkImgHandler blackSurface 2 2) with
      | .error e => Except.error e
      | .ok s1 => (writeBytes [5, 6] { s1 with next_byte := 0 }).map
          (fun s2 : ImgHandler => s2.surface 0 0))
      = .ok (5, 6, 200)) := by
  constructor
  · intro st' hw
    rw [write_next_byte_eq, if_pos hin] at hw
    injection hw with hw2
    subst hw2
    refine ⟨rfl, ?_, ?_, ?_⟩
    · have h1 := byteAt_writeByteResult_self b st
      rw [Nat.mod_eq_of_lt hb] at h1
      exact h1
    · intro c hc3 hcne
      have hsurf : (writeByteResult b st).surface (st.next_byte / 3 % st.w)
          (st.next_byte / 3 / st.w) =
          setChannel (st.surface (st.next_byte / 3 % st.w) (st.next_byte / 3 / st.w))
            (st.next_byte % 3) b := by
        unfold writeByteResult
        simp
      rw [hsurf]
      exact getChannel_setChannel_other _ _ _ _ hc3 (Nat.mod_lt _ (by omega)) hcne
    · intro x y hxy
      show (if x = st.next_byte / 3 % st.w ∧ y = st.next_byte / 3 / st.w then _ else
        st.surface x y) = st.surface x y
      exact if_neg hxy
  · rfl

/-- Witness for C6 at cursor position 4 on a 3×3 surface: channel 1 of
pixel `(1, 0)`. -/
theorem c6_pixel_isolation_witness :
    inBounds 3 3 4 ∧ 17 < 256 ∧
    ((∀ st', write_next_byte 17 { surface := blackSurface, next_byte := 4, w := 3, h := 3 } =
        .ok st' →
      st'.next_byte = 5 ∧
      getChannel (st'.surface 1 0) 1 = 17 ∧
      (∀ c, c < 3 → c ≠ 1 →
        getChannel (st'.surface 1 0) c = getChannel (blackSurface 1 0) c) ∧
      (∀ x y, ¬(x = 1 ∧ y = 0) → st'.surface x y = blackSurface x y)) ∧
    ((match writeBytes [7, 8, 200] (mkImgHandler blackSurface 2 2) with
      | .error e => Except.error e
      | .ok s1 => (writeBytes [5, 6] { s1 with next_byte := 0 }).map
          (fun s2 : ImgHandler => s2.surface 0 0))
      = .ok (5, 6, 200))) :=
  ⟨by decide, by decide,
    c6_pixel_isolation { surface := blackSurface, next_byte := 4, w := 3, h := 3 } 17
      (by decide) (by decide)⟩

theorem map_state_eq {α : Type} (op : Except Err (α × ImgHandler)) (st : ImgHandler)
    (hp : ∀ v st', op = .ok (v, st') →
      st'.surface = st.surface ∧ st'.w = st.w ∧ st'.h = st.h) :
    op.map (fun p => (p.2.surface, p.2.w, p.2.h)) =
      op.map (fun _ => (st.surface, st.w, st.h)) := by
  cases hop : op with
  | error e => rfl
  | ok p =>
    obtain ⟨v, st'⟩ := p
    obtain ⟨h1, h2, h3⟩ := hp v st' hop
    show Except.ok (st'.surface, st'.w, st'.h) = Except.ok (st.surface, st.w, st.h)
    rw [h1, h2, h3]

/-- C9: the generic dispatch.  `write_next` branches on the value's runtime
kind — integers go to `write_next_i64` (never the 32-bit path), strings to
`write_next_string`, lists to `write_next_list`, and anything else to its
own `write_next_object` (`img_serialize`); symmetrically `read_next` with a
declared type uses `read_next_i64` for the integer type, `read_next_string`
for the text type, `read_next_list e` for the parameterized
sequence-of-`e` type, and the type's static `read_next_object`
(`img_deserialize`) otherwise. -/
theorem c9_generic_dispatch :
    (∀ (i : Int) (st : ImgHandler), write_next (.vInt i) st = write_next_i64 i st) ∧
    (∀ (s : List Nat) (st : ImgHandler), write_next (.vStr s) st = write_next_string s st) ∧
    (∀ (l : List PyValue) (st : ImgHandler), write_next (.vList l) st = write_next_list l st) ∧
    (∀ (fields : List PyValue) (st : ImgHandler),
      write_next (.vObj fields) st = write_next_object fields st) ∧
    (∀ st : ImgHandler, read_next .tInt st =
      (read_next_i64 st).map (fun p => (.vInt p.1, p.2))) ∧
    (∀ st : ImgHandler, read_next .tStr st =
      (read_next_string st).map (fun p => (.vStr p.1, p.2))) ∧
    (∀ (e : PyType) (st : ImgHandler), read_next (.tList e) st =
      (read_next_list e st).map (fun p => (.vList p.1, p.2))) ∧
    (∀ (shape : List PyType) (st : ImgHandler), read_next (.tObj shape) st =
      (read_next_object shape st).map (fun p => (.vObj p.1, p.2))) := by
  refine ⟨write_next_int_def, write_next_str_def, write_next_listv_def, write_next_obj_def,
    ?_, ?_, ?_, ?_⟩
  · intro st
    rw [read_next_int_def]
    cases read_next_i64 st with
    | error e => rfl
    | ok p =>
      obtain ⟨i, st1⟩ := p
      rfl
  · intro st
    rw [read_next_str_def]
    cases read_next_string st with
    | error e => rfl
    | ok p =>
      obtain ⟨s, st1⟩ := p
      rfl
  · intro e st
    rw [read_next_listty_def]
    cases read_next_list e st with
    | error e2 => rfl
    | ok p =>
      obtain ⟨l, st1⟩ := p
      rfl
  · intro shape st
    rw [read_next_obj_def]
    cases read_next_object shape st with
    | error e => rfl
    | ok p =>
      obtain ⟨fields, st1⟩ := p
      rfl

/-- C10: reads never mutate the surface.  Every read operation —
`read_next_byte`, `read_next_bytes`, `read_next_i32`, `read_next_i64`,
`read_next_string`, `read_next_list`, and the generic `read_next` — leaves
the surface contents and the cached width and height unchanged in any state
it returns; the only state a read modifies is the cursor `next_byte`. -/
theorem c10_reads_never_mutate :
    (∀ st : ImgHandler, (read_next_byte st).map (fun p => (p.2.surface, p.2.w, p.2.h)) =
      (read_next_byte st).map (fun _ => (st.surface, st.w, st.h))) ∧
    (∀ (k : Nat) (st : ImgHandler),
      (read_next_bytes k st).map (fun p => (p.2.surface, p.2.w, p.2.h)) =
      (read_next_bytes k st).map (fun _ => (st.surface, st.w, st.h))) ∧
    (∀ st : ImgHandler, (read_next_i32 st).map (fun p => (p.2.surface, p.2.w, p.2.h)) =
      (read_next_i32 st).map (fun _ => (st.surface, st.w, st.h))) ∧
    (∀ st : ImgHandler, (read_next_i64 st).map (fun p => (p.2.surface, p.2.w, p.2.h)) =
      (read_next_i64 st).map (fun _ => (st.surface, st.w, st.h))) ∧
    (∀ st : ImgHandler, (read_next_string st).map (fun p => (p.2.surface, p.2.w, p.2.h)) =
      (read_next_string st).map (fun _ => (st.surface, st.w, st.h))) ∧
    (∀ (e : PyType) (st : ImgHandler),
      (read_next_list e st).map (fun p => (p.2.surface, p.2.w, p.2.h)) =
      (read_next_list e st).map (fun _ => (st.surface, st.w, st.h))) ∧
    (∀ (ty : PyType) (st : ImgHandler),
      (read_next ty st).map (fun p => (p.2.surface, p.2.w, p.2.h)) =
      (read_next ty st).map (fun _ => (st.surface, st.w, st.h))) := by
  refine ⟨?_, ?_, ?_, ?_, ?_, ?_, ?_⟩
  · intro st
    apply map_state_eq
    intro v st' h
    obtain ⟨h1, h2, h3, -⟩ := read_next_byte_pres st v st' h
    exact ⟨h1, h2, h3⟩
  · intro k st
    apply map_state_eq
    intro v st' h
    obtain ⟨h1, h2, h3, -⟩ := read_next_bytes_pres k st v st' h
    exact ⟨h1, h2, h3⟩
  · intro st
    apply map_state_eq
    intro v st' h
    exact read_next_i32_pres st v st' h
  · intro st
    apply map_state_eq
    intro v st' h
    exact read_next_i64_pres st v st' h
  · intro st
    apply map_state_eq
    intro v st' h
    exact read_next_string_pres st v st' h
  · intro e st
    apply map_state_eq
    intro v st' h
    exact read_next_list_pres e st v st' h
  · intro ty st
    apply map_state_eq
    intro v st' h
    exact read_next_pres ty st v st' h
